import Mathlib

/-! Ragekit script decompiler: instruction stream, operand stack, basic blocks.

A shallow embedding of `resource/script/instruction_stack.go`, of
`resource/script/ast_function.go` and of `cmd/rage-decompile/main.go`.

Conventions of the embedding

* A Go method with a pointer receiver becomes a function that takes the receiver's
  state and returns the new state next to the result.
* A Go `panic` (explicit or raised by the runtime) becomes the `Except.error` branch,
  carrying a `Panic` value.
* A method that only reads its receiver and whose value is what matters (`isEOF`, `CString`)
  returns that value alone.
* Lines written with `fmt.Println` are returned as a list of strings.
* `uint32` and `int` values are natural numbers. `Instructions.idx` is an unexported
  field that starts at zero and is only changed by `idx++` and `idx = 0`, so it is never
  negative; `idx++` runs only after `code[idx]` was read, so it cannot wrap.
-/

namespace Ragekit

/-! ## Types declared outside the embedded files -/

/-- Modelled from the spec: the operand payload `Immediate32Operands` is declared outside
`instruction_stack.go` and `ast_function.go`; the source builds it as
`&Immediate32Operands{Val: 0xBABE}`, a 32-bit immediate value. -/
structure Immediate32Operands where
  Val : Nat
deriving DecidableEq, Repr

/-- Modelled from the spec: the operand payload `RetOperands` is declared outside the embedded
files; the source reads its field `NumReturnVals`. -/
structure RetOperands where
  NumReturnVals : Nat
deriving DecidableEq, Repr

/-- Modelled from the spec: the `Operands` interface of an instruction is declared outside the
embedded files. The spec gives the payload as a closed set of variants
(immediate value, return-count, branch target, local-slot index). -/
inductive Operands where
  | Immediate32 (ops : Immediate32Operands)
  | Ret (ops : RetOperands)
  | Branch (target : Nat)
  | Local (index : Nat)
  | NoOperands
deriving DecidableEq, Repr

/-- Modelled from the spec: `Instruction` is declared outside the embedded files. The spec gives
it as `{ address: u32, kind: InstructionKind, operands: OperandPayload }`; the source reads the
fields `Address` and `Operands`. -/
structure Instruction where
  Address : Nat
  Kind : Nat
  Operands : Operands
deriving DecidableEq, Repr

/-- Modelled from the spec: the `Node` interface and the types implementing it are declared
outside the embedded files. The variants are the closed set of the spec's data model:
Immediate(value), VariableRef, BinaryExpr(left, op, right), AssignStmt(target, value),
IfStmt(condition, thenBlock), ReturnStmt(values), Comment(text), Declaration(variable).
The source names `Immediate`, `IfStmt` and `Comment`. -/
inductive Node where
  | Immediate (ops : Immediate32Operands)
  | VariableRef (identifier : String)
  | BinaryExpr (left : Node) (op : String) (right : Node)
  | AssignStmt (target : Node) (value : Node)
  | IfStmt (condition : Node) (thenBlock : List Node)
  | ReturnStmt (values : List Node)
  | Comment (text : String)
  | Declaration (identifier : String)
deriving Repr

/-- Modelled from the spec: `link`, the cell type of the operand stack, is declared outside the
embedded files; the source builds it as `&link{Node: node, next: block.nodeStack}` and reads
`popped.Node` and `popped.next`. A value of this type stands for a `*link`: `nil` is the nil
pointer, `cell n r` a pointer to a cell holding the node `n` and the pointer `r`. Cells are never
written after their creation (see `StackMem` below for the pointer-level model), so a pointer is
represented by the chain of cells it leads to. -/
inductive link where
  | nil : link
  | cell (Node : Node) (next : link) : link
deriving Repr

/-- The nodes reachable through a stack reference, head first. -/
def link.toList : link → List Node
  | .nil => []
  | .cell n r => n :: r.toList

/-- A Go panic: an explicit `panic(msg)`, or one raised by the runtime: a slice index out of
range, a failed type assertion, a nil pointer dereference. -/
inductive Panic where
  | message (msg : String)
  | indexOutOfRange (index : Nat) (length : Nat)
  | interfaceConversion
  | nilDereference
deriving DecidableEq, Repr

/-! ## instruction_stack.go -/

/-- `type InstructionState struct { Instruction; nodeStack *link }`. -/
structure InstructionState extends Instruction where
  nodeStack : link
deriving Repr

/-- `type Instructions struct { code []InstructionState; idx int }`. -/
structure Instructions where
  code : List InstructionState
  idx : Nat
deriving Repr

namespace Instructions

/-- `prevInstructionState`: nil when `idx <= 0`, else `&s.code[s.idx-1]`. The returned pointer
is the position of the element in `code`; taking the address of an element outside the slice
is a runtime panic. -/
def prevInstructionState (s : Instructions) : Except Panic (Option Nat) :=
  if s.idx ≤ 0 then
    .ok none
  else if s.idx - 1 < s.code.length then
    .ok (some (s.idx - 1))
  else
    .error (.indexOutOfRange (s.idx - 1) s.code.length)

/-- `peekInstruction`: panics with the end-of-stream message when `idx > len(code)`, else returns
`s.code[s.idx].Instruction`; the index expression itself panics when `idx = len(code)`. -/
def peekInstruction (s : Instructions) : Except Panic (Instruction × Instructions) :=
  if s.idx > s.code.length then
    .error (.message "eof when peeking instruction")
  else
    match s.code[s.idx]? with
    | some st => .ok (st.toInstruction, s)
    | none => .error (.indexOutOfRange s.idx s.code.length)

/-- `nextInstruction`: `istr := s.peekInstruction(); s.idx++; return istr`. -/
def nextInstruction (s : Instructions) : Except Panic (Instruction × Instructions) :=
  match s.peekInstruction with
  | .error p => .error p
  | .ok (istr, s1) => .ok (istr, { s1 with idx := s1.idx + 1 })

/-- `reset`: `s.idx = 0`. -/
def reset (s : Instructions) : Instructions :=
  { s with idx := 0 }

/-- `append`: `s.code = append(s.code, InstructionState{Instruction: istr})`; the snapshot field
takes its zero value, the nil pointer. -/
def append (s : Instructions) (istr : Instruction) : Instructions :=
  { s with code := s.code ++ [{ toInstruction := istr, nodeStack := link.nil }] }

/-- `isEOF`: `s.idx >= len(s.code)`. -/
def isEOF (s : Instructions) : Bool :=
  decide (s.idx ≥ s.code.length)

end Instructions

/-! ## ast_function.go: basic blocks -/

/-- `type BasicBlock struct`. `instrs` is the block's own stream (`newBlock` allocates one per
block), held by value. `Ins` and `Outs` hold the start addresses of the blocks pointed at (the
key of `Function.blocks`). The back pointer `ParentFunc` is not a field here: the methods below
do not read it. -/
structure BasicBlock where
  Statements : List Node
  instrs : Instructions
  nodeStack : link
  Ins : List Nat
  Outs : List Nat
deriving Repr

/-- The placeholder returned on stack underflow: `Immediate{&Immediate32Operands{Val: 0xBABE}}`. -/
def underflowNode : Node :=
  Node.Immediate { Val := 0xBABE }

namespace BasicBlock

/-- `pushNode`: `block.nodeStack = &link{Node: node, next: block.nodeStack}`. -/
def pushNode (block : BasicBlock) (node : Node) : BasicBlock :=
  { block with nodeStack := link.cell node block.nodeStack }

/-- `popNode`: on a nil stack prints the underflow line and returns the placeholder, leaving the
stack as it is; else moves `nodeStack` to `popped.next` and returns `popped.Node`.
The result is the node, the block afterwards, and the lines printed. -/
def popNode (block : BasicBlock) : Node × BasicBlock × List String :=
  match block.nodeStack with
  | link.nil => (underflowNode, block, ["node stack underflow"])
  | link.cell n next => (n, { block with nodeStack := next }, [])

/-- `peekNode`: on a nil stack prints the underflow line and returns the placeholder; else returns
`popped.Node`. The block is not written. -/
def peekNode (block : BasicBlock) : Node × BasicBlock × List String :=
  match block.nodeStack with
  | link.nil => (underflowNode, block, ["node stack underflow"])
  | link.cell n _ => (n, block, [])

/-- Writes `prevState.nodeStack = r` through the pointer to the element at position `i`; the
position is inside the slice, `prevInstructionState` having indexed it. -/
def setSnapshot (code : List InstructionState) (i : Nat) (r : link) : List InstructionState :=
  match code[i]? with
  | some st => code.set i { st with nodeStack := r }
  | none => code

/-- `nextInstruction` of a block: stores the block's current stack reference in the state of the
previous instruction when there is one, then advances the stream. A panic leaves the block as
written so far. -/
def nextInstruction (block : BasicBlock) :
    Except (Panic × BasicBlock) (Instruction × BasicBlock) :=
  match block.instrs.prevInstructionState with
  | .error p => .error (p, block)
  | .ok prevState =>
    let block1 : BasicBlock :=
      match prevState with
      | some i =>
        { block with
          instrs := { block.instrs with
                      code := setSnapshot block.instrs.code i block.nodeStack } }
      | none => block
    match block1.instrs.nextInstruction with
    | .error p => .error (p, block1)
    | .ok (istr, s) => .ok (istr, { block1 with instrs := s })

/-- `peekInstruction` of a block: `return block.instrs.peekInstruction()`. -/
def peekInstruction (block : BasicBlock) : Except Panic (Instruction × BasicBlock) :=
  match block.instrs.peekInstruction with
  | .error p => .error p
  | .ok (istr, s) => .ok (istr, { block with instrs := s })

end BasicBlock

/-! ## Pointer-level model of the operand stack

The methods `pushNode` and `popNode` once more, this time with the `link` cells kept in an
explicit store, so that what a call does to cells that already exist can be stated. -/

/-- One `link` struct in memory: `{Node; next *link}`. A `*link` is `none` for nil, or the address
of a cell. -/
structure Cell where
  Node : Node
  next : Option Nat
deriving Repr

/-- The `link` cells allocated so far (the cell at address `a` is at position `a`) and the field
`block.nodeStack`. -/
structure StackMem where
  cells : List Cell
  nodeStack : Option Nat
deriving Repr

/-- A call of one of the two stack methods. -/
inductive StackCall where
  | push (node : Node)
  | pop
deriving Repr

/-- Follows `next` pointers from `r` and returns the chain of cells reached as a `link` value;
`none` when the steps allowed run out or an address is not allocated. -/
def linkOfCells : Nat → List Cell → Option Nat → Option link
  | _, _, none => some link.nil
  | 0, _, some _ => none
  | fuel + 1, cells, some a =>
    match cells[a]? with
    | none => none
    | some c =>
      match linkOfCells fuel cells c.next with
      | none => none
      | some l => some (link.cell c.Node l)

namespace StackMem

/-- `pushNode`: `&link{Node: node, next: block.nodeStack}` allocates a cell at a fresh address and
`block.nodeStack` is set to that address. -/
def pushNode (m : StackMem) (node : Node) : StackMem :=
  { cells := m.cells ++ [{ Node := node, next := m.nodeStack }]
    nodeStack := some m.cells.length }

/-- `popNode`: as `BasicBlock.popNode`, reading the cell `block.nodeStack` points at. The result is
`none` only when `nodeStack` is an address that was never allocated, which no Go pointer is. -/
def popNode (m : StackMem) : Option (Node × StackMem × List String) :=
  match m.nodeStack with
  | none => some (underflowNode, m, ["node stack underflow"])
  | some a =>
    match m.cells[a]? with
    | some c => some (c.Node, { m with nodeStack := c.next }, [])
    | none => none

/-- Runs the calls from left to right. -/
def run : List StackCall → StackMem → Option StackMem
  | [], m => some m
  | StackCall.push n :: cs, m => run cs (m.pushNode n)
  | StackCall.pop :: cs, m =>
    match m.popNode with
    | some (_, m1, _) => run cs m1
    | none => none

/-- The chain of cells a reference leads to in this store. A chain visits each address at most
once when `next` fields point to older cells, so as many steps as there are cells suffice. -/
def deref (m : StackMem) (r : Option Nat) : Option link :=
  linkOfCells m.cells.length m.cells r

/-- The sequence of nodes a reference denotes in this store, head first. -/
def read (m : StackMem) (r : Option Nat) : Option (List Node) :=
  (m.deref r).map link.toList

/-- A reference that is nil or the address of an allocated cell. -/
def validRef (cells : List Cell) (r : Option Nat) : Prop :=
  ∀ a, r = some a → a < cells.length

/-- Stores as the Go heap has them: every `next` field was taken from `block.nodeStack` when the
cell was allocated, so it is nil or the address of an older cell, and `block.nodeStack` is nil or
an allocated address. -/
def wellFormed (m : StackMem) : Prop :=
  (∀ (a : Nat) (c : Cell), m.cells[a]? = some c → ∀ b, c.next = some b → b < a) ∧
  validRef m.cells m.nodeStack

end StackMem

/-! ## ast_function.go: functions, rendering, return-type inference -/

/-- Modelled from the spec: `DataType` is declared outside the embedded files; the source names
the value `VoidType` (and, in a comment of `main.go`, `Uint32Type`). The spec speaks of an
unresolved type a variable starts with, the Void type and the integer type. -/
inductive DataType where
  | Unresolved
  | VoidType
  | Uint32Type
deriving DecidableEq, Repr

/-- Modelled from the spec: `Variable` is declared outside the embedded files; the spec gives it
as `{ identifier, type: DataType }`, the source reads `fn.Out.Type` (the field `Typ` here,
`Type` being reserved). -/
structure Variable where
  Identifier : String
  Typ : DataType
deriving DecidableEq, Repr

/-- Modelled from the spec: `Declarations` is declared outside the embedded files; an ordered
sequence of variables, read by the source as `fn.In.Vars`. -/
structure Declarations where
  Vars : List Variable
deriving DecidableEq, Repr

/-- The methods the embedded files call on types declared elsewhere, taken as given:
`Node.CString()`, `DataType.CString()`, `Variable.CString()`, `Declarations.CString()`,
`Variable.InferType(t)` (the variable afterwards) and the `DataTypeable` interface
(`DataType` is `none` for a node whose type does not implement it, so that the type assertion
`retVal.(DataTypeable)` panics). -/
structure Externals where
  nodeCString : Node → String
  typeCString : DataType → String
  varCString : Variable → String
  declsCString : Declarations → String
  InferType : Variable → DataType → Variable
  DataType : Node → Option DataType

/-- `strings.Join(elems, sep)`. -/
def stringsJoin : List String → String → String
  | [], _ => ""
  | [a], _ => a
  | a :: b :: rest, sep => a ++ sep ++ stringsJoin (b :: rest) sep

namespace BasicBlock

/-- `Empty`: `len(b.instrs.code) == 0`. -/
def Empty (b : BasicBlock) : Bool :=
  b.instrs.code.length == 0

/-- `StartAddress`: the address of the first instruction, 0 for an empty block. -/
def StartAddress (b : BasicBlock) : Nat :=
  match b.instrs.code with
  | st :: _ => st.Address
  | [] => 0

/-- `emitStatement`: `block.Statements = append(block.Statements, stmt)`. -/
def emitStatement (block : BasicBlock) (stmt : Node) : BasicBlock :=
  { block with Statements := block.Statements ++ [stmt] }

/-- `emitComment`, given the text `fmt.Sprintf(format, args...)` produced: emits the comment as a
statement and prints the text. -/
def emitComment (block : BasicBlock) (commentStr : String) : BasicBlock × List String :=
  (block.emitStatement (Node.Comment commentStr), [commentStr])

/-- The `hasSemicolon` flag of `CString`: the type switch leaves it false for `IfStmt` and
`Comment` and sets it in the default case. -/
def hasSemicolon (s : Node) : Bool :=
  match s with
  | Node.IfStmt _ _ => false
  | Node.Comment _ => false
  | _ => true

/-- The body of the loop of `CString` for one statement. The statement
`if hasSemicolon { fmt.Sprintf("%v;", stmt) }` computes the text with the terminator and drops
it: its value is assigned to nothing, and `stmt` goes into the line as it was. -/
def CStringLine (ext : Externals) (s : Node) : String :=
  let stmt := ext.nodeCString s
  let _dropped : Option String := if hasSemicolon s then some (stmt ++ ";") else none
  "\t" ++ stmt ++ "\n"

/-- `CString` of a block: one `fmt.Sprintf("\t%v\n", stmt)` per statement, joined with the empty
separator. -/
def CString (ext : Externals) (block : BasicBlock) : String :=
  stringsJoin (block.Statements.map (CStringLine ext)) ""

end BasicBlock

/-- `type Function struct`. `Out` is a pointer that may be nil; the embedded `*BasicBlock` is the
entry block; the two maps are association lists keyed by block address. -/
structure Function where
  Identifier : String
  In : Declarations
  Out : Option Variable
  Address : Nat
  Decls : Declarations
  instrs : Instructions
  BasicBlock : BasicBlock
  blocks : List (Nat × Ragekit.BasicBlock)
  blocksVisited : List (Nat × Bool)
deriving Repr

/-- `NewFunction`: zero values, an entry block with an empty stream, empty maps. -/
def NewFunction : Function :=
  { Identifier := "", In := { Vars := [] }, Out := none, Address := 0, Decls := { Vars := [] },
    instrs := { code := [], idx := 0 },
    BasicBlock := { Statements := [], instrs := { code := [], idx := 0 }, nodeStack := link.nil,
                    Ins := [], Outs := [] },
    blocks := [], blocksVisited := [] }

namespace Function

/-- `CString` of a function:
`fmt.Sprintf("%v %v(%v) {\n%v\n%v}", fn.Out.Type.CString(), fn.Identifier,
strings.Join(args, ", "), fn.Decls.CString(), fn.BasicBlock.CString())`, where `args` holds the
rendering of each input variable. Reading `fn.Out.Type` through a nil `Out` panics. -/
def CString (ext : Externals) (fn : Function) : Except Panic String :=
  let args := fn.In.Vars.map ext.varCString
  match fn.Out with
  | none => .error Panic.nilDereference
  | some out =>
    .ok (ext.typeCString out.Typ ++ " " ++ fn.Identifier ++ "(" ++ stringsJoin args ", "
      ++ ") \x7b\n" ++ ext.declsCString fn.Decls ++ "\n" ++ fn.BasicBlock.CString ext ++ "\x7d")

/-- `inferReturnType`. The type assertion `ret.Operands.(*RetOperands)` panics on any other
operand type. With zero return values the output variable infers `VoidType`; with one, the node
`fn.peekNode()` returns is asserted `DataTypeable` and the output variable infers its data type;
otherwise the function panics. The result is the function afterwards and the lines printed; a
panic carries the function as it is then and the lines printed so far. Calling `InferType`
through a nil `Out` is taken to panic. -/
def inferReturnType (ext : Externals) (fn : Function) (ret : Instruction) :
    Except (Panic × Function × List String) (Function × List String) :=
  match ret.Operands with
  | Operands.Ret op =>
    if op.NumReturnVals == 0 then
      match fn.Out with
      | none => .error (Panic.nilDereference, fn, [])
      | some retVar => .ok ({ fn with Out := some (ext.InferType retVar DataType.VoidType) }, [])
    else if op.NumReturnVals == 1 then
      match fn.BasicBlock.peekNode with
      | (retVal, block1, out) =>
        match ext.DataType retVal with
        | none => .error (Panic.interfaceConversion, { fn with BasicBlock := block1 }, out)
        | some t =>
          match fn.Out with
          | none => .error (Panic.nilDereference, { fn with BasicBlock := block1 }, out)
          | some retVar =>
            .ok ({ fn with BasicBlock := block1, Out := some (ext.InferType retVar t) }, out)
    else
      .error (Panic.message "unable to infer return value of function", fn, [])
  | _ => .error (Panic.interfaceConversion, fn, [])

end Function

/-! ## Rendering calls as steps on the state -/

/-- A call `block.CString()` as a step on the block: the text returned and the block afterwards.
The method assigns to its local slice `stmts` only, never to a field of the receiver. -/
def BasicBlock.CStringCall (ext : Externals) (block : BasicBlock) : String × BasicBlock :=
  let stmts := block.Statements.map (BasicBlock.CStringLine ext)
  (stringsJoin stmts "", block)

/-- A call `fn.CString()` as a step on the function: the text returned and the function
afterwards, its entry block being the block the call `fn.BasicBlock.CString()` leaves. The method
assigns to its local slice `args` only. -/
def Function.CStringCall (ext : Externals) (fn : Function) : Except Panic (String × Function) :=
  let args := fn.In.Vars.map ext.varCString
  match fn.Out with
  | none => .error Panic.nilDereference
  | some out =>
    match fn.BasicBlock.CStringCall ext with
    | (body, block1) =>
      .ok (ext.typeCString out.Typ ++ " " ++ fn.Identifier ++ "(" ++ stringsJoin args ", "
        ++ ") \x7b\n" ++ ext.declsCString fn.Decls ++ "\n" ++ body ++ "\x7d",
        { fn with BasicBlock := block1 })

/-- Modelled from the spec: the architectures `resource.Arch360` (console) and `resource.ArchPC`
are declared in package `resource`, outside the embedded files. -/
inductive Arch where
  | Arch360
  | ArchPC
deriving DecidableEq, Repr

/-- Whether the characters of `sub` stand at the start of `s`. -/
def startsWithChars : List Char → List Char → Bool
  | _, [] => true
  | [], _ :: _ => false
  | c :: cs, d :: ds => c == d && startsWithChars cs ds

/-- Whether the characters of `sub` occur in `s` as a contiguous run. -/
def containsChars : List Char → List Char → Bool
  | [], sub => startsWithChars [] sub
  | c :: cs, sub => startsWithChars (c :: cs) sub || containsChars cs sub

/-- `strings.Contains(s, substr)`. -/
def stringsContains (s substr : String) : Bool :=
  containsChars s.toList substr.toList

/-- The switch under `/* Set the architecture */`: the first case whose condition holds selects
the architecture, the default case panics. -/
def setArchitecture (in_file : String) : Except Panic Arch :=
  if stringsContains in_file "xsc" then
    .ok Arch.Arch360
  else if stringsContains in_file "ysc" then
    .ok Arch.ArchPC
  else
    .error (Panic.message ("unknown architecture, path: " ++ in_file))

/-- The collaborators of `main` outside the embedded files, by the results they give: reading the
file, `path.Base`, `Container.Unpack` (an error, or none; its last argument is
`uint32(len(data))`), `LoadNativeDB` (an error, or none), `Script.Unpack` with the instructions it
emits, and `Decompile` followed by `CString`. -/
structure Collaborators where
  readFile : String → Except String (List Nat)
  pathBase : String → String
  containerUnpack : Arch → List Nat → String → Nat → Option String
  loadNativeDB : Option String
  scriptUnpack : Arch → List Nat → String → Except String (List Instruction)
  decompile : List Instruction → String

/-- What `main` does that is visible from outside, in order. -/
inductive Event where
  | logPrintf (line : String)
  | readFile (path : String)
  | setArch (arch : Arch)
  | containerUnpack
  | loadNativeDB
  | scriptUnpack
  | decompile
  | println (text : String)
deriving DecidableEq, Repr

/-- How `main` ends: it returns, `log.Fatal` exits the process, or a panic. -/
inductive Exit where
  | returned
  | logFatal (err : String)
  | panicked (p : Panic)
deriving DecidableEq, Repr

/-- `main`, given `os.Args`: the events in order and the way it ends. -/
def main (w : Collaborators) (args : List String) : List Event × Exit :=
  match args[1]? with
  | none => ([], Exit.panicked (Panic.indexOutOfRange 1 args.length))
  | some in_file =>
    let ev1 := [Event.logPrintf ("Decompiling " ++ in_file ++ "\n"), Event.readFile in_file]
    match w.readFile in_file with
    | .error err => (ev1, Exit.logFatal err)
    | .ok data =>
      match setArchitecture in_file with
      | .error p => (ev1, Exit.panicked p)
      | .ok arch =>
        let ev2 := ev1 ++ [Event.setArch arch, Event.containerUnpack]
        match w.containerUnpack arch data (w.pathBase in_file) (data.length % 2 ^ 32) with
        | some err => (ev2, Exit.logFatal err)
        | none =>
          let ev3 := ev2 ++ [Event.loadNativeDB]
          let ev4 :=
            match w.loadNativeDB with
            | some err =>
              ev3 ++ [Event.logPrintf ("Unable to load hash dictionary (" ++ err
                ++ "). Lookups will be unavailable\n")]
            | none => ev3
          let ev5 := ev4 ++ [Event.scriptUnpack]
          match w.scriptUnpack arch data (w.pathBase in_file) with
          | .error err => (ev5, Exit.logFatal err)
          | .ok code =>
            (ev5 ++ [Event.decompile, Event.println (w.decompile code)], Exit.returned)

/-! ## Composite runs and sample data -/

namespace BasicBlock

/-- `newBlock`: a block with an empty instruction slice and zero values elsewhere. -/
def newBlock : BasicBlock :=
  { Statements := [], instrs := { code := [], idx := 0 }, nodeStack := link.nil,
    Ins := [], Outs := [] }

/-- The call `popNode()` followed by `pushNode` of the node it returned: the node and the block
afterwards. -/
def popThenPush (block : BasicBlock) : Node × BasicBlock :=
  match block.popNode with
  | (n, block1, _) => (n, block1.pushNode n)

end BasicBlock

/-- An instruction at address `a`, without operands. -/
def instrAt (a : Nat) : Instruction :=
  { Address := a, Kind := 0, Operands := Operands.NoOperands }

/-- A stream over the instructions at addresses `0 .. n-1`, no snapshot recorded, cursor `idx`. -/
def streamOf (n idx : Nat) : Instructions :=
  { code := (List.range n).map fun a => { toInstruction := instrAt a, nodeStack := link.nil }
    idx := idx }

/-- A one-cell stack holding the immediate `v`. -/
def stackOf (v : Nat) : link :=
  link.cell (Node.Immediate { Val := v }) link.nil

/-- A block over `streamOf n idx` with operand stack `r`. -/
def blockOf (n idx : Nat) (r : link) : BasicBlock :=
  { Statements := [], instrs := streamOf n idx, nodeStack := r, Ins := [], Outs := [] }

/-- A run of `nextInstruction` calls on a block, one call per entry of the list: the entry is the
operand stack the interpreter has left in `block.nodeStack` when the call is made. Returns the
instructions handed out, in call order, and the block after the last call; stops at the first
panic. -/
def BasicBlock.consume :
    List link → BasicBlock → Except (Panic × BasicBlock) (List Instruction × BasicBlock)
  | [], block => .ok ([], block)
  | r :: rs, block =>
    match ({ block with nodeStack := r } : BasicBlock).nextInstruction with
    | .error e => .error e
    | .ok (istr, block1) =>
      match BasicBlock.consume rs block1 with
      | .error e => .error e
      | .ok (istrs, block2) => .ok (istr :: istrs, block2)

/-- The instruction states `code` with the snapshots of the leading ones replaced, in order, by
the entries of `rs`; states beyond the length of `rs` are kept. -/
def recorded : List InstructionState → List link → List InstructionState
  | [], _ => []
  | c :: cs, [] => c :: cs
  | c :: cs, r :: rs => { c with nodeStack := r } :: recorded cs rs

/-- A store built by two pushes on the empty store: the immediate 1 below the immediate 2. -/
def sampleMem : StackMem :=
  (StackMem.pushNode (StackMem.pushNode { cells := [], nodeStack := none }
    (Node.Immediate { Val := 1 })) (Node.Immediate { Val := 2 }))

/-- Stand-ins for the methods declared outside the embedded files, used only to evaluate the
embedded functions on concrete input: expressions over variable references render in infix
form, a comment after `// `, `InferType` stores the type, and immediates, variable references
and binary expressions are the nodes with a data type. -/
def sampleExt : Externals :=
  { nodeCString := fun n =>
      match n with
      | Node.VariableRef name => name
      | Node.BinaryExpr (Node.VariableRef a) op (Node.VariableRef b) => a ++ " " ++ op ++ " " ++ b
      | Node.ReturnStmt [Node.BinaryExpr (Node.VariableRef a) op (Node.VariableRef b)] =>
        "return " ++ a ++ " " ++ op ++ " " ++ b
      | Node.Comment text => "// " ++ text
      | _ => "?"
    typeCString := fun t =>
      match t with
      | DataType.Unresolved => "unknown"
      | DataType.VoidType => "void"
      | DataType.Uint32Type => "uint32"
    varCString := fun v =>
      (match v.Typ with
        | DataType.Unresolved => "unknown"
        | DataType.VoidType => "void"
        | DataType.Uint32Type => "uint32") ++ " " ++ v.Identifier
    declsCString := fun _ => ""
    InferType := fun v t => { v with Typ := t }
    DataType := fun n =>
      match n with
      | Node.Immediate _ => some DataType.Uint32Type
      | Node.VariableRef _ => some DataType.Uint32Type
      | Node.BinaryExpr _ _ _ => some DataType.Uint32Type
      | _ => none }

/-- A return instruction declaring `n` return values. -/
def retInstr (n : Nat) : Instruction :=
  { Address := 0, Kind := 0, Operands := Operands.Ret { NumReturnVals := n } }

/-- The function `add(a, b)` with an unresolved output variable `result` and the operand stack
`r` in its entry block. -/
def sampleFunction (r : link) : Function :=
  { NewFunction with
    Identifier := "add"
    In := { Vars := [{ Identifier := "a", Typ := DataType.Uint32Type },
                     { Identifier := "b", Typ := DataType.Uint32Type }] }
    Out := some { Identifier := "result", Typ := DataType.Unresolved }
    BasicBlock := { NewFunction.BasicBlock with nodeStack := r } }

/-- Collaborators for which every step succeeds: the file is read as empty, the container and the
script unpack without error and emit no instruction. -/
def sampleCollaborators : Collaborators :=
  { readFile := fun _ => .ok []
    pathBase := fun p => p
    containerUnpack := fun _ _ _ _ => none
    loadNativeDB := none
    scriptUnpack := fun _ _ _ => .ok []
    decompile := fun _ => "" }

/-- Collaborators for which reading the file fails. -/
def failingRead : Collaborators :=
  { sampleCollaborators with readFile := fun _ => .error "open: no such file or directory" }

/-- The instructions added one by one with `append`, first to last. -/
def Instructions.appendAll (s : Instructions) : List Instruction → Instructions
  | [] => s
  | istr :: rest => Instructions.appendAll (s.append istr) rest

/-- `n` successive calls of `nextInstruction`; each instruction handed out comes with the value
`isEOF` had right before its call. Stops at the first panic. -/
def Instructions.drain :
    Nat → Instructions → Except Panic (List (Bool × Instruction) × Instructions)
  | 0, s => .ok ([], s)
  | n + 1, s =>
    match s.nextInstruction with
    | .error p => .error p
    | .ok (istr, s1) =>
      match Instructions.drain n s1 with
      | .error p => .error p
      | .ok (rest, s2) => .ok ((s.isEOF, istr) :: rest, s2)

/-- A call of one of the stream methods that write or read the cursor. -/
inductive StreamCall where
  | append (istr : Instruction)
  | reset
  | peekInstruction
  | nextInstruction
deriving Repr

/-- Runs the calls from left to right on a stream; stops at the first panic. -/
def Instructions.runCalls : List StreamCall → Instructions → Except Panic Instructions
  | [], s => .ok s
  | StreamCall.append istr :: rest, s => Instructions.runCalls rest (s.append istr)
  | StreamCall.reset :: rest, s => Instructions.runCalls rest s.reset
  | StreamCall.peekInstruction :: rest, s =>
    match s.peekInstruction with
    | .error p => .error p
    | .ok (_, s1) => Instructions.runCalls rest s1
  | StreamCall.nextInstruction :: rest, s =>
    match s.nextInstruction with
    | .error p => .error p
    | .ok (_, s1) => Instructions.runCalls rest s1

/-! ## Operand stack: push, pop, peek -/

/-- C1. Stack LIFO law: for every block (whatever its operand stack `r`) and every node `n`,
`pushNode(n)` followed by `popNode` returns exactly `n`, prints nothing, and leaves the block,
its operand stack included, as it was before the push. In the store of cells, the pop after the
push returns `n` and sets `nodeStack` back to the very reference it held before the push. -/
theorem pop_push_lifo (block : BasicBlock) (n : Node) :
    (block.pushNode n).popNode = (n, block, []) ∧
    (block.pushNode n).popNode.2.1.nodeStack = block.nodeStack ∧
    (∀ m : StackMem, (m.pushNode n).popNode
      = some (n, { cells := (m.pushNode n).cells, nodeStack := m.nodeStack }, [])) := by
  refine ⟨rfl, rfl, ?_⟩
  intro m
  simp [StackMem.pushNode, StackMem.popNode]

/-- C2. Popping an empty operand stack is not fatal: on a block whose stack is nil, `popNode`
returns the placeholder `Immediate` with value 0xBABE, leaves the block (and so the empty stack)
as it is and prints the underflow line; `peekNode` returns the same placeholder. -/
theorem pop_empty_placeholder (block : BasicBlock) (h : block.nodeStack = link.nil) :
    block.popNode = (Node.Immediate { Val := 0xBABE }, block, ["node stack underflow"]) ∧
    block.popNode.2.1.nodeStack = link.nil ∧
    block.peekNode = (Node.Immediate { Val := 0xBABE }, block, ["node stack underflow"]) ∧
    block.peekNode.1 = block.popNode.1 := by
  simp [BasicBlock.popNode, BasicBlock.peekNode, h, underflowNode]

theorem pop_empty_placeholder_witness :
    BasicBlock.newBlock.nodeStack = link.nil ∧
    BasicBlock.newBlock.popNode
      = (Node.Immediate { Val := 47806 }, BasicBlock.newBlock, ["node stack underflow"]) ∧
    BasicBlock.newBlock.peekNode.1 = BasicBlock.newBlock.popNode.1 :=
  have h := pop_empty_placeholder BasicBlock.newBlock rfl
  ⟨rfl, h.1, h.2.2.2⟩

/-- C3. Peek/pop consistency: on a block with a non-empty operand stack, `peekNode` returns the
node `popNode` would return from that state, and leaves the block, its stack included,
unchanged. -/
theorem peek_eq_pop_node (block : BasicBlock) (h : block.nodeStack ≠ link.nil) :
    block.peekNode.1 = block.popNode.1 ∧
    block.peekNode.2.1 = block ∧
    block.peekNode.2.1.nodeStack = block.nodeStack := by
  cases hs : block.nodeStack with
  | nil => exact absurd hs h
  | cell n r => simp [BasicBlock.peekNode, BasicBlock.popNode, hs]

theorem peek_eq_pop_node_witness :
    (blockOf 0 0 (stackOf 7)).nodeStack ≠ link.nil ∧
    (blockOf 0 0 (stackOf 7)).peekNode.1 = Node.Immediate { Val := 7 } ∧
    (blockOf 0 0 (stackOf 7)).peekNode.1 = (blockOf 0 0 (stackOf 7)).popNode.1 ∧
    (blockOf 0 0 (stackOf 7)).peekNode.2.1 = blockOf 0 0 (stackOf 7) :=
  have hne : (blockOf 0 0 (stackOf 7)).nodeStack ≠ link.nil := by simp [blockOf, stackOf]
  have h := peek_eq_pop_node (blockOf 0 0 (stackOf 7)) hne
  ⟨hne, rfl, h.1, h.2.1⟩

/-- C4, as stated, fails on the empty stack: `popNode` then `pushNode` of the returned placeholder
leaves a one-cell stack, while `peekNode` leaves the stack nil. -/
theorem pop_then_push_differs_on_empty :
    BasicBlock.newBlock.popThenPush.1 = BasicBlock.newBlock.peekNode.1 ∧
    BasicBlock.newBlock.popThenPush.2.nodeStack = link.cell underflowNode link.nil ∧
    BasicBlock.newBlock.peekNode.2.1.nodeStack = link.nil ∧
    BasicBlock.newBlock.popThenPush.2.nodeStack ≠ BasicBlock.newBlock.peekNode.2.1.nodeStack := by
  refine ⟨rfl, rfl, rfl, ?_⟩
  intro h
  cases h

/-- C4, amended. On a block with a non-empty operand stack, `popNode` followed by `pushNode` of
the node it returned yields the same node and the same block (so the same operand stack) as a
single `peekNode`, namely the original one. -/
theorem pop_then_push_eq_peek (block : BasicBlock) (h : block.nodeStack ≠ link.nil) :
    block.popThenPush = (block.peekNode.1, block.peekNode.2.1) ∧
    block.popThenPush.2 = block ∧
    block.popThenPush.2.nodeStack = block.nodeStack := by
  cases hs : block.nodeStack with
  | nil => exact absurd hs h
  | cell n r =>
    have e : block = { block with nodeStack := link.cell n r } := by
      cases block; simp_all
    simp [BasicBlock.popThenPush, BasicBlock.peekNode, BasicBlock.popNode,
      BasicBlock.pushNode, hs, ← e]

theorem pop_then_push_eq_peek_witness :
    (blockOf 0 0 (stackOf 7)).nodeStack ≠ link.nil ∧
    (blockOf 0 0 (stackOf 7)).popThenPush
      = (Node.Immediate { Val := 7 }, blockOf 0 0 (stackOf 7)) ∧
    (blockOf 0 0 (stackOf 7)).popThenPush.2 = blockOf 0 0 (stackOf 7) :=
  have hne : (blockOf 0 0 (stackOf 7)).nodeStack ≠ link.nil := by simp [blockOf, stackOf]
  have h := pop_then_push_eq_peek (blockOf 0 0 (stackOf 7)) hne
  ⟨hne, h.1, h.2.1⟩

/-! ## Instruction stream: cursor operations -/

/-- On a cursor before the end, `peekInstruction` succeeds with the instruction at the cursor and
the stream as it was. -/
theorem Instructions.peekInstruction_of_lt (s : Instructions) (h : s.idx < s.code.length) :
    s.peekInstruction = .ok (s.code[s.idx].toInstruction, s) := by
  have hg : s.code[s.idx]? = some s.code[s.idx] := List.getElem?_eq_getElem h
  unfold Instructions.peekInstruction
  rw [if_neg (Nat.not_lt.mpr (Nat.le_of_lt h)), hg]

/-- On a cursor before the end, `nextInstruction` succeeds with the instruction at the cursor and
the cursor moved by one. -/
theorem Instructions.nextInstruction_of_lt (s : Instructions) (h : s.idx < s.code.length) :
    s.nextInstruction
      = .ok (s.code[s.idx].toInstruction, { code := s.code, idx := s.idx + 1 }) := by
  simp [Instructions.nextInstruction, Instructions.peekInstruction_of_lt s h]

/-- C6. For every stream whose cursor is before the end (`idx < len(code)`), `nextInstruction`
returns the instruction stored at position `idx`, sets the cursor to `idx + 1`, and leaves the
instruction list unchanged. -/
theorem next_instruction_advances (s : Instructions) (h : s.idx < s.code.length) :
    ∃ s1, s.nextInstruction = .ok (s.code[s.idx].toInstruction, s1) ∧
      s1.idx = s.idx + 1 ∧ s1.code = s.code :=
  ⟨{ code := s.code, idx := s.idx + 1 }, Instructions.nextInstruction_of_lt s h, rfl, rfl⟩

theorem next_instruction_advances_witness :
    (streamOf 3 1).idx < (streamOf 3 1).code.length ∧
    ∃ s1, (streamOf 3 1).nextInstruction = .ok (instrAt 1, s1) ∧
      s1.idx = 2 ∧ s1.code = (streamOf 3 1).code :=
  ⟨by decide, next_instruction_advances (streamOf 3 1) (by decide)⟩

/-- The end-of-stream panic of `peekInstruction` is raised exactly when the cursor is beyond
`len(code)`. -/
theorem Instructions.peekInstruction_eof_iff (s : Instructions) :
    s.peekInstruction = .error (.message "eof when peeking instruction")
      ↔ s.idx > s.code.length := by
  unfold Instructions.peekInstruction
  by_cases h : s.idx > s.code.length
  · simp [h]
  · simp only [h, if_false, iff_false]
    cases s.code[s.idx]? <;> simp

/-- C7, what the code does with the cursor exactly at the end (`idx = len(code)`, where `isEOF`
is true): the guard `idx > len(code)` does not fire, and both `peekInstruction` and
`nextInstruction` fail on the slice index instead of with the end-of-stream panic. -/
theorem peek_at_end_index_panic (s : Instructions) (h : s.idx = s.code.length) :
    s.isEOF = true ∧
    s.peekInstruction = .error (.indexOutOfRange s.idx s.code.length) ∧
    s.nextInstruction = .error (.indexOutOfRange s.idx s.code.length) ∧
    s.peekInstruction ≠ .error (.message "eof when peeking instruction") ∧
    s.nextInstruction ≠ .error (.message "eof when peeking instruction") := by
  have hg : s.code[s.idx]? = none := List.getElem?_eq_none_iff.mpr (Nat.le_of_eq h.symm)
  have hp : s.peekInstruction = .error (.indexOutOfRange s.idx s.code.length) := by
    unfold Instructions.peekInstruction
    rw [if_neg (Nat.not_lt.mpr (Nat.le_of_eq h)), hg]
  refine ⟨by simp [Instructions.isEOF, h], hp, ?_, ?_, ?_⟩
  · simp [Instructions.nextInstruction, hp]
  · simp [hp]
  · simp [Instructions.nextInstruction, hp]

theorem peek_at_end_index_panic_witness :
    (streamOf 1 1).idx = (streamOf 1 1).code.length ∧
    (streamOf 1 1).isEOF = true ∧
    (streamOf 1 1).peekInstruction = .error (.indexOutOfRange 1 1) ∧
    (streamOf 1 1).nextInstruction = .error (.indexOutOfRange 1 1) :=
  have h := peek_at_end_index_panic (streamOf 1 1) rfl
  ⟨rfl, h.1, h.2.1, h.2.2.1⟩

/-- C8. For every stream with `idx < len(code)`, `peekInstruction` returns the instruction that
`nextInstruction` returns from the same state and leaves cursor and instruction list unchanged,
so a second peek returns the same instruction; `BasicBlock.peekInstruction` returns that
instruction and leaves the block unchanged. -/
theorem peek_instruction_frame (block : BasicBlock)
    (h : block.instrs.idx < block.instrs.code.length) :
    ∃ istr s1,
      block.instrs.peekInstruction = .ok (istr, block.instrs) ∧
      block.instrs.nextInstruction = .ok (istr, s1) ∧
      (match block.instrs.peekInstruction with
        | .ok (_, s2) => s2.peekInstruction
        | .error p => .error p) = .ok (istr, block.instrs) ∧
      block.peekInstruction = .ok (istr, block) := by
  refine ⟨block.instrs.code[block.instrs.idx].toInstruction,
    { code := block.instrs.code, idx := block.instrs.idx + 1 },
    Instructions.peekInstruction_of_lt _ h, Instructions.nextInstruction_of_lt _ h, ?_, ?_⟩
  · simp [Instructions.peekInstruction_of_lt _ h]
  · simp [BasicBlock.peekInstruction, Instructions.peekInstruction_of_lt _ h]

theorem peek_instruction_frame_witness :
    (blockOf 3 1 link.nil).instrs.idx < (blockOf 3 1 link.nil).instrs.code.length ∧
    ∃ istr s1,
      (blockOf 3 1 link.nil).instrs.peekInstruction = .ok (istr, (blockOf 3 1 link.nil).instrs) ∧
      (blockOf 3 1 link.nil).instrs.nextInstruction = .ok (istr, s1) ∧
      (match (blockOf 3 1 link.nil).instrs.peekInstruction with
        | .ok (_, s2) => s2.peekInstruction
        | .error p => .error p) = .ok (istr, (blockOf 3 1 link.nil).instrs) ∧
      (blockOf 3 1 link.nil).peekInstruction = .ok (istr, blockOf 3 1 link.nil) :=
  ⟨by decide, peek_instruction_frame (blockOf 3 1 link.nil) (by decide)⟩

/-- C9. For every stream state, `reset` sets the cursor to 0 and leaves the list of instruction
states unchanged: every stored instruction and every recorded operand-stack snapshot. -/
theorem reset_keeps_snapshots (s : Instructions) :
    s.reset.idx = 0 ∧
    s.reset.code = s.code ∧
    s.reset.code.map (fun st => st.toInstruction) = s.code.map (fun st => st.toInstruction) ∧
    s.reset.code.map (fun st => st.nodeStack) = s.code.map (fun st => st.nodeStack) :=
  ⟨rfl, rfl, rfl, rfl⟩

/-! ## Snapshots recorded by `BasicBlock.nextInstruction` -/

theorem getElem?_append_length {α : Type} (pre : List α) (c : α) (post : List α) :
    (pre ++ c :: post)[pre.length]? = some c := by
  induction pre with
  | nil => simp
  | cons a pre ih => simpa using ih

theorem setSnapshot_append (pre : List InstructionState) (c : InstructionState)
    (post : List InstructionState) (r : link) :
    BasicBlock.setSnapshot (pre ++ c :: post) pre.length r
      = pre ++ { c with nodeStack := r } :: post := by
  unfold BasicBlock.setSnapshot
  rw [getElem?_append_length]
  induction pre with
  | nil => rfl
  | cons a pre ih => simp

/-- With the cursor at 0 the call writes no snapshot and hands out the first instruction. -/
theorem BasicBlock.nextInstruction_first (block : BasicBlock) (c : InstructionState)
    (post : List InstructionState) (hc : block.instrs.code = c :: post)
    (hi : block.instrs.idx = 0) :
    block.nextInstruction
      = .ok (c.toInstruction, { block with instrs := { code := c :: post, idx := 1 } }) := by
  have hp : block.instrs.prevInstructionState = .ok none := by
    simp [Instructions.prevInstructionState, hi]
  have hn : block.instrs.nextInstruction
      = .ok (c.toInstruction, { code := c :: post, idx := 1 }) := by
    have hlt : block.instrs.idx < block.instrs.code.length := by simp [hc, hi]
    rw [Instructions.nextInstruction_of_lt _ hlt]
    simp [hc, hi]
  simp only [BasicBlock.nextInstruction, hp, hn]

/-- With the cursor past `pre ++ [c]` the call stores the current stack as the snapshot of `c`,
the instruction consumed before, and hands out the instruction after it. -/
theorem BasicBlock.nextInstruction_later (block : BasicBlock) (pre : List InstructionState)
    (c p : InstructionState) (post : List InstructionState)
    (hc : block.instrs.code = pre ++ c :: p :: post)
    (hi : block.instrs.idx = pre.length + 1) :
    block.nextInstruction
      = .ok (p.toInstruction,
          { block with
            instrs := { code := pre ++ { c with nodeStack := block.nodeStack } :: p :: post
                        idx := pre.length + 2 } }) := by
  have hp : block.instrs.prevInstructionState = .ok (some pre.length) := by
    simp [Instructions.prevInstructionState, hi, hc]
  have hs : BasicBlock.setSnapshot block.instrs.code pre.length block.nodeStack
      = pre ++ { c with nodeStack := block.nodeStack } :: p :: post := by
    rw [hc, setSnapshot_append]
  have hg : (pre ++ { c with nodeStack := block.nodeStack } :: p :: post)[pre.length + 1]?
      = some p := by
    have := getElem?_append_length (pre ++ [{ c with nodeStack := block.nodeStack }]) p post
    simpa using this
  simp only [BasicBlock.nextInstruction, hp, hs, Instructions.nextInstruction,
    Instructions.peekInstruction, hi, hg]
  simp

theorem recorded_length (cs : List InstructionState) (rs : List link) :
    (recorded cs rs).length = cs.length := by
  induction cs generalizing rs with
  | nil => rfl
  | cons c cs ih => cases rs <;> simp [recorded, ih]

theorem recorded_instructions (cs : List InstructionState) (rs : List link) :
    (recorded cs rs).map (fun st => st.toInstruction) = cs.map (fun st => st.toInstruction) := by
  induction cs generalizing rs with
  | nil => rfl
  | cons c cs ih => cases rs <;> simp [recorded, ih]

theorem recorded_snapshot (cs : List InstructionState) (rs : List link) (k : Nat)
    (hk : k < rs.length) (hc : k < cs.length) :
    (recorded cs rs)[k]?.map (fun st => st.nodeStack) = rs[k]? := by
  induction cs generalizing rs k with
  | nil => simp at hc
  | cons c cs ih =>
    cases rs with
    | nil => simp at hk
    | cons r rs =>
      cases k with
      | zero => simp [recorded]
      | succ k =>
        have := ih rs k (by simpa using hk) (by simpa using hc)
        simpa [recorded] using this

theorem recorded_beyond (cs : List InstructionState) (rs : List link) (k : Nat)
    (hk : rs.length ≤ k) :
    (recorded cs rs)[k]? = cs[k]? := by
  induction cs generalizing rs k with
  | nil => rfl
  | cons c cs ih =>
    cases rs with
    | nil => rfl
    | cons r rs =>
      cases k with
      | zero => simp at hk
      | succ k =>
        have := ih rs k (by simpa using hk)
        simpa [recorded] using this

/-- A run that starts with the cursor past `pre ++ [c]` and makes one call per remaining
instruction: the stack of each call becomes the snapshot of the instruction before the one the
call hands out. -/
theorem BasicBlock.consume_later (calls : List link) (block : BasicBlock)
    (pre : List InstructionState) (c : InstructionState) (post : List InstructionState)
    (hc : block.instrs.code = pre ++ c :: post)
    (hi : block.instrs.idx = pre.length + 1)
    (hl : calls.length = post.length) :
    BasicBlock.consume calls block
      = .ok (post.map (fun st => st.toInstruction),
          { block with
            nodeStack := calls.getLastD block.nodeStack
            instrs := { code := pre ++ recorded (c :: post) calls
                        idx := pre.length + 1 + post.length } }) := by
  induction calls generalizing block pre c post with
  | nil =>
    cases post with
    | cons p post => simp at hl
    | nil =>
      cases block with
      | mk st ins ns i o =>
        cases ins with
        | mk code idx =>
          simp only at hc hi
          subst hc hi
          simp [BasicBlock.consume, recorded]
  | cons r rs ih =>
    cases post with
    | nil => simp at hl
    | cons p post =>
      have hstep := BasicBlock.nextInstruction_later { block with nodeStack := r } pre c p post
        hc hi
      have hrec := ih
        ({ block with
            nodeStack := r
            instrs := { code := pre ++ { c with nodeStack := r } :: p :: post
                        idx := pre.length + 2 } } : BasicBlock)
        (pre ++ [{ c with nodeStack := r }]) p post (by simp) (by simp)
        (by simpa using hl)
      simp only [BasicBlock.consume, hstep, hrec]
      simp [recorded, List.getLastD_cons, Nat.add_assoc, Nat.add_comm, Nat.add_left_comm]
      cases rs with
      | nil => rfl
      | cons r2 rs =>
        rw [List.getLast?_eq_getLast _ (List.cons_ne_nil r2 rs)]
        rfl

/-- With the cursor at `j + 1`, before the end, the call stores the current stack as the snapshot
of instruction `j` and hands out instruction `j + 1`. -/
theorem BasicBlock.nextInstruction_at_succ (block : BasicBlock) (j : Nat)
    (hi : block.instrs.idx = j + 1) (h : j + 1 < block.instrs.code.length) :
    block.nextInstruction
      = .ok (block.instrs.code[j + 1].toInstruction,
          { block with
            instrs := { code := block.instrs.code.set j
                                  { block.instrs.code[j] with nodeStack := block.nodeStack }
                        idx := j + 2 } }) := by
  obtain ⟨st, ⟨code, idx⟩, ns, ins, outs⟩ := block
  simp only at hi h
  subst hi
  have hj : j < code.length := by omega
  have hp : ({ code := code, idx := j + 1 } : Instructions).prevInstructionState
      = .ok (some j) := by
    simp [Instructions.prevInstructionState, hj]
  have hs : BasicBlock.setSnapshot code j ns = code.set j { code[j] with nodeStack := ns } := by
    simp [BasicBlock.setSnapshot, List.getElem?_eq_getElem hj]
  have hlen : j + 1 < (code.set j { code[j] with nodeStack := ns }).length := by
    simpa using h
  have hn := Instructions.nextInstruction_of_lt
    { code := code.set j { code[j] with nodeStack := ns }, idx := j + 1 } hlen
  have hget : (code.set j { code[j] with nodeStack := ns })[j + 1] = code[j + 1] :=
    List.getElem_set_ne (by omega) _
  simp only [hget] at hn
  simp only [BasicBlock.nextInstruction, hp, hs, hn]

/-- With the cursor at 0 and a non-empty stream, the call changes no instruction state and hands
out instruction 0. -/
theorem BasicBlock.nextInstruction_at_zero (block : BasicBlock)
    (hi : block.instrs.idx = 0) (h : 0 < block.instrs.code.length) :
    block.nextInstruction
      = .ok (block.instrs.code[0].toInstruction,
          { block with instrs := { code := block.instrs.code, idx := 1 } }) := by
  obtain ⟨st, ⟨code, idx⟩, ns, ins, outs⟩ := block
  simp only at hi h
  subst hi
  cases code with
  | nil => simp at h
  | cons c post =>
    exact BasicBlock.nextInstruction_first _ c post rfl rfl

/-- C10, as stated, fails. The call that hands out instruction 0 of a one-instruction block with
a non-empty operand stack leaves that instruction's snapshot nil, and the block has then consumed
all its instructions; over two instructions, the snapshot of instruction 0 is the stack of the
second call and the last instruction has none. -/
theorem own_snapshot_not_recorded :
    (∃ b1, (blockOf 1 0 (stackOf 7)).nextInstruction = .ok (instrAt 0, b1) ∧
      b1.instrs.idx = 1 ∧
      b1.instrs.code = [{ toInstruction := instrAt 0, nodeStack := link.nil }] ∧
      link.nil ≠ (blockOf 1 0 (stackOf 7)).nodeStack) ∧
    (∃ b2, BasicBlock.consume [stackOf 7, stackOf 8] (blockOf 2 0 link.nil)
        = .ok ([instrAt 0, instrAt 1], b2) ∧
      b2.instrs.idx = 2 ∧
      b2.instrs.code = [{ toInstruction := instrAt 0, nodeStack := stackOf 8 },
                        { toInstruction := instrAt 1, nodeStack := link.nil }]) := by
  refine ⟨⟨_, rfl, rfl, rfl, ?_⟩, ⟨_, rfl, rfl, rfl⟩⟩
  intro h
  cases h

/-- A block with cursor 0 that consumes all its instructions: every call succeeds, and the stack
of each call after the first becomes the snapshot of the instruction consumed before it. -/
theorem BasicBlock.consume_all (block : BasicBlock) (calls : List link)
    (h0 : block.instrs.idx = 0) (hl : calls.length = block.instrs.code.length) :
    ∃ b1, BasicBlock.consume calls block
        = .ok (block.instrs.code.map (fun st => st.toInstruction), b1) ∧
      b1.instrs.idx = block.instrs.code.length ∧
      b1.instrs.code.length = block.instrs.code.length ∧
      b1.instrs.code.map (fun st => st.toInstruction)
        = block.instrs.code.map (fun st => st.toInstruction) ∧
      (∀ k, k + 1 < block.instrs.code.length →
        b1.instrs.code[k]?.map (fun st => st.nodeStack) = calls[k + 1]?) ∧
      (∀ k, k + 1 = block.instrs.code.length →
        b1.instrs.code[k]? = block.instrs.code[k]?) := by
  cases hcode : block.instrs.code with
  | nil =>
    have hc : calls = [] := by
      rw [hcode] at hl
      exact List.length_eq_zero.mp hl
    subst hc
    refine ⟨block, by simp [BasicBlock.consume], by simp [h0], by simp [hcode],
      by simp [hcode], ?_, ?_⟩
    · intro k hk
      simp at hk
    · intro k hk
      simp at hk
  | cons c post =>
    cases calls with
    | nil => simp [hcode] at hl
    | cons r rs =>
      have hlen : rs.length = post.length := by simpa [hcode] using hl
      have hstep := BasicBlock.nextInstruction_first { block with nodeStack := r } c post
        hcode h0
      have hrest := BasicBlock.consume_later rs
        ({ block with nodeStack := r, instrs := { code := c :: post, idx := 1 } } : BasicBlock)
        [] c post rfl rfl hlen
      refine ⟨({ block with
                  nodeStack := rs.getLastD r
                  instrs := { code := recorded (c :: post) rs
                              idx := 1 + post.length } } : BasicBlock), ?_, ?_, ?_, ?_, ?_, ?_⟩
      · simp only [BasicBlock.consume, hstep, hrest, List.map_cons]
        simp
      · simp [Nat.add_comm]
      · simp [recorded_length]
      · simpa using recorded_instructions (c :: post) rs
      · intro k hk
        have hk1 : k < rs.length := by
          simp only [List.length_cons] at hk
          omega
        have hk2 : k < (c :: post).length := by
          simp only [List.length_cons] at hk ⊢
          omega
        simpa using recorded_snapshot (c :: post) rs k hk1 hk2
      · intro k hk
        have hk1 : rs.length ≤ k := by
          simp only [List.length_cons] at hk
          omega
        simpa using recorded_beyond (c :: post) rs k hk1

/-- One call with the cursor before the end: the instruction at the cursor is handed out, its own
state is not written, and the state of the instruction before it receives the current stack. -/
theorem BasicBlock.nextInstruction_step (block : BasicBlock)
    (h : block.instrs.idx < block.instrs.code.length) :
    ∃ b1, block.nextInstruction
        = .ok (block.instrs.code[block.instrs.idx].toInstruction, b1) ∧
      b1.instrs.idx = block.instrs.idx + 1 ∧
      b1.nodeStack = block.nodeStack ∧
      b1.instrs.code[block.instrs.idx]? = block.instrs.code[block.instrs.idx]? ∧
      (∀ j, j + 1 = block.instrs.idx →
        b1.instrs.code[j]?.map (fun st => st.nodeStack) = some block.nodeStack) ∧
      (block.instrs.idx = 0 → b1.instrs.code = block.instrs.code) := by
  obtain ⟨st, ⟨code, idx⟩, ns, ins, outs⟩ := block
  simp only at h
  cases idx with
  | zero =>
    refine ⟨_, BasicBlock.nextInstruction_at_zero _ rfl h, rfl, rfl, rfl, ?_, fun _ => rfl⟩
    intro j hj
    simp at hj
  | succ j =>
    have hj : j < code.length := by omega
    refine ⟨_, BasicBlock.nextInstruction_at_succ _ j rfl h, rfl, rfl, ?_, ?_, ?_⟩
    · simp
    · intro k hk
      have hkj : k = j := by
        simp only at hk
        omega
      subst hkj
      simp [List.getElem?_set, hj]
    · intro h0
      simp at h0

/-- C10, amended. The call of `nextInstruction` that hands out instruction `i` (cursor at
`i < len(code)`) leaves instruction `i`'s own state as it was and records the block's current
operand-stack reference as the snapshot of instruction `i - 1`, the instruction consumed before;
with the cursor at 0 it records nothing. Consequently, when a block with cursor 0 consumes all `n`
of its instructions, every call succeeds, the instructions come out in order, each of the first
`n - 1` instruction states carries the stack current at the following call, and the state of the
last instruction is left as it was. -/
theorem snapshots_after_consuming_all :
    (∀ (block : BasicBlock) (h : block.instrs.idx < block.instrs.code.length),
      ∃ b1, block.nextInstruction
          = .ok (block.instrs.code[block.instrs.idx].toInstruction, b1) ∧
        b1.instrs.idx = block.instrs.idx + 1 ∧
        b1.nodeStack = block.nodeStack ∧
        b1.instrs.code[block.instrs.idx]? = block.instrs.code[block.instrs.idx]? ∧
        (∀ j, j + 1 = block.instrs.idx →
          b1.instrs.code[j]?.map (fun st => st.nodeStack) = some block.nodeStack) ∧
        (block.instrs.idx = 0 → b1.instrs.code = block.instrs.code)) ∧
    (∀ (block : BasicBlock) (calls : List link),
      block.instrs.idx = 0 → calls.length = block.instrs.code.length →
      ∃ b1, BasicBlock.consume calls block
          = .ok (block.instrs.code.map (fun st => st.toInstruction), b1) ∧
        b1.instrs.idx = block.instrs.code.length ∧
        b1.instrs.code.length = block.instrs.code.length ∧
        b1.instrs.code.map (fun st => st.toInstruction)
          = block.instrs.code.map (fun st => st.toInstruction) ∧
        (∀ k, k + 1 < block.instrs.code.length →
          b1.instrs.code[k]?.map (fun st => st.nodeStack) = calls[k + 1]?) ∧
        (∀ k, k + 1 = block.instrs.code.length →
          b1.instrs.code[k]? = block.instrs.code[k]?)) :=
  ⟨BasicBlock.nextInstruction_step, BasicBlock.consume_all⟩

theorem snapshots_after_consuming_all_witness :
    (blockOf 3 2 (stackOf 7)).instrs.idx < (blockOf 3 2 (stackOf 7)).instrs.code.length ∧
    (∃ b1, (blockOf 3 2 (stackOf 7)).nextInstruction = .ok (instrAt 2, b1) ∧
      b1.instrs.idx = 3 ∧
      b1.instrs.code[2]? = (blockOf 3 2 (stackOf 7)).instrs.code[2]? ∧
      b1.instrs.code[1]?.map (fun st => st.nodeStack) = some (stackOf 7)) ∧
    (blockOf 2 0 link.nil).instrs.idx = 0 ∧
    [stackOf 7, stackOf 8].length = (blockOf 2 0 link.nil).instrs.code.length ∧
    (∃ b1, BasicBlock.consume [stackOf 7, stackOf 8] (blockOf 2 0 link.nil)
        = .ok ([instrAt 0, instrAt 1], b1) ∧
      b1.instrs.idx = 2 ∧
      b1.instrs.code[0]?.map (fun st => st.nodeStack) = some (stackOf 8) ∧
      b1.instrs.code[1]? = (blockOf 2 0 link.nil).instrs.code[1]?) :=
  have h1 := snapshots_after_consuming_all.1 (blockOf 3 2 (stackOf 7)) (by decide)
  have h2 := snapshots_after_consuming_all.2 (blockOf 2 0 link.nil) [stackOf 7, stackOf 8]
    rfl rfl
  ⟨by decide,
    h1.elim fun b1 hb => ⟨b1, hb.1, hb.2.1, hb.2.2.2.1, hb.2.2.2.2.1 1 rfl⟩,
    rfl, rfl,
    h2.elim fun b1 hb => ⟨b1, hb.1, hb.2.1, hb.2.2.2.2.1 0 (by decide),
      hb.2.2.2.2.2 1 rfl⟩⟩

/-! ## Operand stack cells are never rewritten -/

theorem linkOfCells_append (fuel : Nat) (cells ext : List Cell) (r : Option Nat)
    (hw : ∀ (a : Nat) (c : Cell), cells[a]? = some c → ∀ b, c.next = some b → b < a)
    (hr : StackMem.validRef cells r) :
    linkOfCells fuel (cells ++ ext) r = linkOfCells fuel cells r := by
  induction fuel generalizing r with
  | zero => cases r <;> rfl
  | succ fuel ih =>
    cases r with
    | none => rfl
    | some a =>
      have ha : a < cells.length := hr a rfl
      have hg : (cells ++ ext)[a]? = cells[a]? := List.getElem?_append_left ha
      have hc : cells[a]? = some cells[a] := List.getElem?_eq_getElem ha
      have hn : StackMem.validRef cells cells[a].next := by
        intro b hb
        exact Nat.lt_trans (hw a _ hc b hb) ha
      simp only [linkOfCells, hg, hc, ih _ hn]

theorem linkOfCells_succ (fuel : Nat) (cells : List Cell) (r : Option Nat) (l : link)
    (h : linkOfCells fuel cells r = some l) :
    linkOfCells (fuel + 1) cells r = some l := by
  induction fuel generalizing r l with
  | zero =>
    cases r with
    | none => simpa [linkOfCells] using h
    | some a => simp [linkOfCells] at h
  | succ fuel ih =>
    cases r with
    | none => simpa [linkOfCells] using h
    | some a =>
      cases hc : cells[a]? with
      | none => simp [linkOfCells, hc] at h
      | some c =>
        cases hl : linkOfCells fuel cells c.next with
        | none => simp [linkOfCells, hc, hl] at h
        | some l1 =>
          simp only [linkOfCells, hc, hl] at h
          simp only [linkOfCells, hc, ih _ _ hl]
          exact h

theorem linkOfCells_add (k fuel : Nat) (cells : List Cell) (r : Option Nat) (l : link)
    (h : linkOfCells fuel cells r = some l) :
    linkOfCells (fuel + k) cells r = some l := by
  induction k with
  | zero => exact h
  | succ k ih => exact linkOfCells_succ _ _ _ _ ih

theorem linkOfCells_enough (fuel : Nat) (cells : List Cell) (r : Option Nat)
    (hw : ∀ (a : Nat) (c : Cell), cells[a]? = some c → ∀ b, c.next = some b → b < a)
    (hr : StackMem.validRef cells r) (hf : ∀ a, r = some a → a < fuel) :
    ∃ l, linkOfCells fuel cells r = some l := by
  induction fuel generalizing r with
  | zero =>
    cases r with
    | none => exact ⟨link.nil, rfl⟩
    | some a => exact absurd (hf a rfl) (Nat.not_lt_zero a)
  | succ fuel ih =>
    cases r with
    | none => exact ⟨link.nil, rfl⟩
    | some a =>
      have ha : a < cells.length := hr a rfl
      have hc : cells[a]? = some cells[a] := List.getElem?_eq_getElem ha
      have hn : StackMem.validRef cells cells[a].next := by
        intro b hb
        exact Nat.lt_trans (hw a _ hc b hb) ha
      have hf2 : ∀ b, cells[a].next = some b → b < fuel := by
        intro b hb
        exact Nat.lt_of_lt_of_le (hw a _ hc b hb) (Nat.le_of_lt_succ (hf a rfl))
      obtain ⟨l, hl⟩ := ih _ hn hf2
      exact ⟨link.cell cells[a].Node l, by simp only [linkOfCells, hc, hl]⟩

theorem StackMem.wellFormed_pushNode (m : StackMem) (n : Node) (h : m.wellFormed) :
    (m.pushNode n).wellFormed := by
  obtain ⟨hw, hv⟩ := h
  constructor
  · intro a c hc b hb
    by_cases ha : a < m.cells.length
    · have : (m.cells ++ [({ Node := n, next := m.nodeStack } : Cell)])[a]? = m.cells[a]? :=
        List.getElem?_append_left ha
      simp only [StackMem.pushNode, this] at hc
      exact hw a c hc b hb
    · have hlen : (m.pushNode n).cells.length = m.cells.length + 1 := by
        simp [StackMem.pushNode]
      have ha2 : a < (m.pushNode n).cells.length := by
        by_contra hcon
        have := List.getElem?_eq_none_iff.mpr (Nat.le_of_not_lt hcon)
        rw [this] at hc
        cases hc
      have hae : a = m.cells.length := by omega
      subst hae
      have hcell : (m.pushNode n).cells[m.cells.length]?
          = some ({ Node := n, next := m.nodeStack } : Cell) := by
        simp [StackMem.pushNode]
      rw [hcell] at hc
      cases hc
      exact hv b hb
  · intro a ha
    simp only [StackMem.pushNode, Option.some.injEq] at ha
    subst ha
    simp [StackMem.pushNode]

theorem StackMem.popNode_wellFormed (m : StackMem) (h : m.wellFormed) :
    ∃ n m1 out, m.popNode = some (n, m1, out) ∧ m1.cells = m.cells ∧ m1.wellFormed := by
  obtain ⟨hw, hv⟩ := h
  cases hs : m.nodeStack with
  | none =>
    refine ⟨underflowNode, m, ["node stack underflow"], ?_, rfl, hw, hv⟩
    simp [StackMem.popNode, hs]
  | some a =>
    have ha : a < m.cells.length := hv a hs
    have hc : m.cells[a]? = some m.cells[a] := List.getElem?_eq_getElem ha
    refine ⟨m.cells[a].Node, { m with nodeStack := m.cells[a].next }, [], ?_, rfl, hw, ?_⟩
    · simp [StackMem.popNode, hs, hc]
    · intro b hb
      exact Nat.lt_trans (hw a _ hc b hb) ha

theorem StackMem.run_extends (calls : List StackCall) (m : StackMem) (h : m.wellFormed) :
    ∃ m1 ext, StackMem.run calls m = some m1 ∧ m1.cells = m.cells ++ ext ∧ m1.wellFormed := by
  induction calls generalizing m with
  | nil => exact ⟨m, [], rfl, by simp, h⟩
  | cons call calls ih =>
    cases call with
    | push n =>
      obtain ⟨m1, ext, hrun, hext, hwf⟩ := ih (m.pushNode n) (StackMem.wellFormed_pushNode m n h)
      refine ⟨m1, { Node := n, next := m.nodeStack } :: ext, ?_, ?_, hwf⟩
      · simpa [StackMem.run] using hrun
      · simpa [StackMem.pushNode] using hext
    | pop =>
      obtain ⟨n, m0, out, hpop, hcells, hwf0⟩ := StackMem.popNode_wellFormed m h
      obtain ⟨m1, ext, hrun, hext, hwf⟩ := ih m0 hwf0
      refine ⟨m1, ext, ?_, ?_, hwf⟩
      · simpa [StackMem.run, hpop] using hrun
      · rw [hext, hcells]

/-- C5. Stack immutability. In a store of `link` cells as Go builds it, let `r` be a stack
reference that is nil or points at an allocated cell (a reference captured from the block, such as
a snapshot). After any sequence of `pushNode` and `popNode` calls on the block, every call
completes, the cells that existed keep their contents, and `r` leads to the same chain of cells
and so denotes the same sequence of nodes as when it was captured. A push allocates one new cell,
holding the pushed node and the previous `nodeStack` as its `next`, and makes it the head. In the
value model, `pushNode` and `popNode` leave the instruction states and their snapshots as they
were. -/
theorem stack_reference_immutable (m : StackMem) (r : Option Nat) (calls : List StackCall)
    (hwf : m.wellFormed) (hr : StackMem.validRef m.cells r) :
    (∃ m1, StackMem.run calls m = some m1 ∧
      (∀ a, a < m.cells.length → m1.cells[a]? = m.cells[a]?) ∧
      (∃ l, m.deref r = some l ∧ m1.deref r = some l) ∧
      (∃ ns, m.read r = some ns ∧ m1.read r = some ns)) ∧
    (∀ n, (m.pushNode n).nodeStack = some m.cells.length ∧
      (m.pushNode n).cells = m.cells ++ [{ Node := n, next := m.nodeStack }] ∧
      (m.pushNode n).cells[m.cells.length]? = some { Node := n, next := m.nodeStack } ∧
      (∀ a, a < m.cells.length → (m.pushNode n).cells[a]? = m.cells[a]?)) ∧
    (∀ (block : BasicBlock) (n : Node),
      (block.pushNode n).nodeStack = link.cell n block.nodeStack ∧
      (block.pushNode n).instrs = block.instrs ∧
      block.popNode.2.1.instrs = block.instrs) := by
  refine ⟨?_, ?_, ?_⟩
  · obtain ⟨m1, ext, hrun, hext, _⟩ := StackMem.run_extends calls m hwf
    obtain ⟨l, hl⟩ := linkOfCells_enough m.cells.length m.cells r hwf.1 hr hr
    have hl1 : m1.deref r = some l := by
      unfold StackMem.deref
      rw [hext, linkOfCells_append _ _ _ _ hwf.1 hr, List.length_append]
      exact linkOfCells_add _ _ _ _ _ hl
    refine ⟨m1, hrun, ?_, ⟨l, hl, hl1⟩, ⟨l.toList, ?_, ?_⟩⟩
    · intro a ha
      rw [hext]
      exact List.getElem?_append_left ha
    · simp [StackMem.read, StackMem.deref, hl]
    · simp [StackMem.read, hl1]
  · intro n
    refine ⟨rfl, rfl, by simp [StackMem.pushNode], ?_⟩
    intro a ha
    exact List.getElem?_append_left ha
  · intro block n
    refine ⟨rfl, rfl, ?_⟩
    cases hs : block.nodeStack <;> simp [BasicBlock.popNode, hs]

theorem stack_reference_immutable_witness :
    sampleMem.wellFormed ∧ StackMem.validRef sampleMem.cells (some 1) ∧
    sampleMem.read (some 1) = some [Node.Immediate { Val := 2 }, Node.Immediate { Val := 1 }] ∧
    (∃ m1, StackMem.run
        [StackCall.pop, StackCall.push (Node.Immediate { Val := 9 }), StackCall.pop,
          StackCall.pop, StackCall.pop, StackCall.push (Node.Immediate { Val := 3 })]
        sampleMem = some m1 ∧
      (∀ a, a < sampleMem.cells.length → m1.cells[a]? = sampleMem.cells[a]?) ∧
      (∃ l, sampleMem.deref (some 1) = some l ∧ m1.deref (some 1) = some l) ∧
      (∃ ns, sampleMem.read (some 1) = some ns ∧ m1.read (some 1) = some ns)) :=
  have hwf : sampleMem.wellFormed :=
    StackMem.wellFormed_pushNode _ _ (StackMem.wellFormed_pushNode _ _
      ⟨fun a c hc => by simp at hc, fun a ha => by cases ha⟩)
  have hr : StackMem.validRef sampleMem.cells (some 1) := by
    intro a ha
    cases ha
    decide
  ⟨hwf, hr, rfl, (stack_reference_immutable sampleMem (some 1) _ hwf hr).1⟩

/-! ## The value model of the stack follows the pointer model -/

/-- A push in the store yields a reference to the chain `link.cell n l`, where `l` is the chain
the previous `nodeStack` led to: the chain `BasicBlock.pushNode` builds. -/
theorem StackMem.deref_pushNode (m : StackMem) (n : Node) (l : link) (hwf : m.wellFormed)
    (h : m.deref m.nodeStack = some l) :
    (m.pushNode n).deref (m.pushNode n).nodeStack = some (link.cell n l) := by
  have hcell : (m.cells ++ [({ Node := n, next := m.nodeStack } : Cell)])[m.cells.length]?
      = some ({ Node := n, next := m.nodeStack } : Cell) := by
    simp
  have hrest : linkOfCells m.cells.length
      (m.cells ++ [({ Node := n, next := m.nodeStack } : Cell)]) m.nodeStack = some l := by
    rw [linkOfCells_append _ _ _ _ hwf.1 hwf.2]
    exact h
  simp only [StackMem.deref, StackMem.pushNode, List.length_append, List.length_singleton,
    linkOfCells, hcell, hrest]

/-- A pop in the store returns what `BasicBlock.popNode` returns on the chain `nodeStack` leads to,
and leaves `nodeStack` leading to the chain `BasicBlock.popNode` leaves. -/
theorem StackMem.popNode_refines (m : StackMem) (block : BasicBlock) (hwf : m.wellFormed)
    (h : m.deref m.nodeStack = some block.nodeStack) :
    ∃ m1, m.popNode = some (block.popNode.1, m1, block.popNode.2.2) ∧
      m1.cells = m.cells ∧
      m1.deref m1.nodeStack = some block.popNode.2.1.nodeStack := by
  cases hs : m.nodeStack with
  | none =>
    have hnil : block.nodeStack = link.nil := by
      rw [hs] at h
      cases hlen : m.cells.length <;> simp [StackMem.deref, linkOfCells, hlen] at h <;>
        exact h.symm
    refine ⟨m, ?_, rfl, ?_⟩
    · simp [StackMem.popNode, BasicBlock.popNode, hs, hnil]
    · have h2 := h
      rw [hnil] at h2
      simpa [BasicBlock.popNode, hnil] using h2
  | some a =>
    have ha : a < m.cells.length := hwf.2 a hs
    have hc : m.cells[a]? = some m.cells[a] := List.getElem?_eq_getElem ha
    obtain ⟨k, hk⟩ : ∃ k, m.cells.length = k + 1 := ⟨m.cells.length - 1, by omega⟩
    rw [hs] at h
    simp only [StackMem.deref, hk, linkOfCells, hc] at h
    cases hl : linkOfCells k m.cells m.cells[a].next with
    | none => simp [hl] at h
    | some l1 =>
      simp only [hl, Option.some.injEq] at h
      refine ⟨{ m with nodeStack := m.cells[a].next }, ?_, rfl, ?_⟩
      · simp [StackMem.popNode, BasicBlock.popNode, hs, hc, ← h]
      · have := linkOfCells_succ _ _ _ _ hl
        simp [StackMem.deref, BasicBlock.popNode, ← h, hk, this]

/-! ## Pairing of an instruction with the stack of the following call -/

theorem map_toInstruction_set (code : List InstructionState) (j : Nat) (hj : j < code.length)
    (r : link) :
    (code.set j { code[j] with nodeStack := r }).map (fun st => st.toInstruction)
      = code.map (fun st => st.toInstruction) := by
  apply List.ext_getElem?
  intro i
  by_cases hij : j = i
  · subst hij
    simp [List.getElem?_set, hj]
  · simp [List.getElem?_set, hij]

/-- With the cursor at 0 the call writes no instruction state, whether it succeeds or panics on
an empty stream. -/
theorem BasicBlock.nextInstruction_zero_code (block : BasicBlock) (hi : block.instrs.idx = 0) :
    match block.nextInstruction with
    | .ok (_, b1) => b1.instrs.code = block.instrs.code ∧ b1.nodeStack = block.nodeStack
    | .error (_, b1) => b1.instrs.code = block.instrs.code ∧ b1.nodeStack = block.nodeStack := by
  by_cases h : 0 < block.instrs.code.length
  · rw [BasicBlock.nextInstruction_at_zero block hi h]
    exact ⟨rfl, rfl⟩
  · have hp : block.instrs.prevInstructionState = .ok none := by
      simp [Instructions.prevInstructionState, hi]
    have hnil : block.instrs.code = [] := by
      cases hc : block.instrs.code with
      | nil => rfl
      | cons c cs => simp [hc] at h
    have hn : block.instrs.nextInstruction = .error (.indexOutOfRange 0 0) := by
      simp [Instructions.nextInstruction, Instructions.peekInstruction, hi, hnil]
    simp [BasicBlock.nextInstruction, hp, hn]

/-- C11. InstructionState pairing: for every block with cursor `k`, `1 <= k < len(code)`,
`nextInstruction` hands out instruction `k` and stores the operand stack current at the call as
the snapshot of instruction `k - 1`, the instruction consumed before; the state of every other
instruction, every instruction, and the block's operand stack stay as they were. With cursor 0 the
call changes no instruction state at all. -/
theorem next_instruction_pairs_previous (block : BasicBlock)
    (h1 : 1 ≤ block.instrs.idx) (h2 : block.instrs.idx < block.instrs.code.length) :
    (∃ b1 prev, block.instrs.code[block.instrs.idx - 1]? = some prev ∧
      block.nextInstruction = .ok (block.instrs.code[block.instrs.idx].toInstruction, b1) ∧
      b1.instrs.code[block.instrs.idx - 1]? = some { prev with nodeStack := block.nodeStack } ∧
      (∀ j, j ≠ block.instrs.idx - 1 → b1.instrs.code[j]? = block.instrs.code[j]?) ∧
      b1.instrs.code.map (fun st => st.toInstruction)
        = block.instrs.code.map (fun st => st.toInstruction) ∧
      b1.instrs.code.length = block.instrs.code.length ∧
      b1.instrs.idx = block.instrs.idx + 1 ∧
      b1.nodeStack = block.nodeStack) ∧
    (∀ b0 : BasicBlock, b0.instrs.idx = 0 →
      match b0.nextInstruction with
      | .ok (_, b1) => b1.instrs.code = b0.instrs.code ∧ b1.nodeStack = b0.nodeStack
      | .error (_, b1) => b1.instrs.code = b0.instrs.code ∧ b1.nodeStack = b0.nodeStack) := by
  refine ⟨?_, BasicBlock.nextInstruction_zero_code⟩
  obtain ⟨st, ⟨code, idx⟩, ns, ins, outs⟩ := block
  simp only at h1 h2
  obtain ⟨k, rfl⟩ : ∃ k, idx = k + 1 := ⟨idx - 1, by omega⟩
  have hk : k < code.length := by omega
  refine ⟨_, code[k], ?_, BasicBlock.nextInstruction_at_succ _ k rfl h2, ?_, ?_, ?_, ?_, rfl, rfl⟩
  · simp [List.getElem?_eq_getElem hk]
  · simp [List.getElem?_set, hk]
  · intro j hj
    have hjk : k ≠ j := by
      simp only [Nat.add_sub_cancel] at hj
      exact fun e => hj e.symm
    simp [List.getElem?_set, hjk]
  · exact map_toInstruction_set code k hk ns
  · simp

theorem next_instruction_pairs_previous_witness :
    1 ≤ (blockOf 3 2 (stackOf 7)).instrs.idx ∧
    (blockOf 3 2 (stackOf 7)).instrs.idx < (blockOf 3 2 (stackOf 7)).instrs.code.length ∧
    (∃ b1, (blockOf 3 2 (stackOf 7)).nextInstruction = .ok (instrAt 2, b1) ∧
      b1.instrs.code[1]? = some { toInstruction := instrAt 1, nodeStack := stackOf 7 } ∧
      b1.instrs.code[0]? = (blockOf 3 2 (stackOf 7)).instrs.code[0]? ∧
      b1.instrs.code[2]? = (blockOf 3 2 (stackOf 7)).instrs.code[2]? ∧
      b1.nodeStack = stackOf 7) := by
  refine ⟨by decide, by decide, ?_⟩
  obtain ⟨b1, prev, hprev, hnext, hsnap, hothers, _, _, _, hstack⟩ :=
    (next_instruction_pairs_previous (blockOf 3 2 (stackOf 7)) (by decide) (by decide)).1
  have hcode : (blockOf 3 2 (stackOf 7)).instrs.code[1]?
      = some { toInstruction := instrAt 1, nodeStack := link.nil } := rfl
  have hp : prev = { toInstruction := instrAt 1, nodeStack := link.nil } :=
    Option.some.inj (hprev.symm.trans hcode)
  subst hp
  exact ⟨b1, hnext, hsnap, hothers 0 (by decide), hothers 2 (by decide), hstack⟩

/-! ## Return-type inference -/

/-- C12. Return-type inference: for a function with an output variable and a return instruction
with `RetOperands`, `inferReturnType` with `NumReturnVals = 0` makes the output variable infer
`VoidType` whatever the operand stack holds and leaves everything else as it was; with
`NumReturnVals = 1` it makes the output variable infer the data type of the node `peekNode`
returns, which on a non-empty stack is the node on top, and leaves the operand stack unchanged. -/
theorem infer_return_type (ext : Externals) (fn : Function) (ret : Instruction)
    (v : Variable) (op : RetOperands)
    (hOut : fn.Out = some v) (hret : ret.Operands = Operands.Ret op) :
    (op.NumReturnVals = 0 →
      fn.inferReturnType ext ret
        = .ok ({ fn with Out := some (ext.InferType v DataType.VoidType) }, [])) ∧
    (op.NumReturnVals = 1 → ∀ n r t,
      fn.BasicBlock.nodeStack = link.cell n r → ext.DataType n = some t →
      fn.inferReturnType ext ret = .ok ({ fn with Out := some (ext.InferType v t) }, [])) ∧
    (op.NumReturnVals = 1 → ∀ t, ext.DataType fn.BasicBlock.peekNode.1 = some t →
      ∃ fn1, fn.inferReturnType ext ret = .ok (fn1, fn.BasicBlock.peekNode.2.2) ∧
        fn1.Out = some (ext.InferType v t) ∧
        fn1.BasicBlock = fn.BasicBlock ∧
        fn1.BasicBlock.nodeStack = fn.BasicBlock.nodeStack) := by
  refine ⟨?_, ?_, ?_⟩
  · intro h0
    simp [Function.inferReturnType, hret, h0, hOut]
  · intro h1 n r t hs ht
    have hpeek : fn.BasicBlock.peekNode = (n, fn.BasicBlock, []) := by
      simp [BasicBlock.peekNode, hs]
    simp [Function.inferReturnType, hret, h1, hOut, hpeek, ht]
  · intro h1 t ht
    have hpeek : fn.BasicBlock.peekNode
        = (fn.BasicBlock.peekNode.1, fn.BasicBlock, fn.BasicBlock.peekNode.2.2) := by
      cases hs : fn.BasicBlock.nodeStack <;> simp [BasicBlock.peekNode, hs]
    refine ⟨{ fn with Out := some (ext.InferType v t) }, ?_, rfl, rfl, rfl⟩
    rw [Function.inferReturnType]
    simp only [hret, h1]
    rw [hpeek]
    simp [ht, hOut]

theorem infer_return_type_witness :
    (sampleFunction (stackOf 7)).Out = some { Identifier := "result", Typ := DataType.Unresolved } ∧
    (sampleFunction (stackOf 7)).inferReturnType sampleExt (retInstr 0)
      = .ok ({ sampleFunction (stackOf 7) with
                Out := some { Identifier := "result", Typ := DataType.VoidType } }, []) ∧
    (sampleFunction (stackOf 7)).inferReturnType sampleExt (retInstr 1)
      = .ok ({ sampleFunction (stackOf 7) with
                Out := some { Identifier := "result", Typ := DataType.Uint32Type } }, []) :=
  have h0 := infer_return_type sampleExt (sampleFunction (stackOf 7)) (retInstr 0)
    { Identifier := "result", Typ := DataType.Unresolved } { NumReturnVals := 0 } rfl rfl
  have h1 := infer_return_type sampleExt (sampleFunction (stackOf 7)) (retInstr 1)
    { Identifier := "result", Typ := DataType.Unresolved } { NumReturnVals := 1 } rfl rfl
  ⟨rfl, h0.1 rfl,
    h1.2.1 rfl (Node.Immediate { Val := 7 }) link.nil DataType.Uint32Type rfl rfl⟩

/-- C13. Multi-value returns are fatal: for a function with an output variable and a return
instruction with `RetOperands`, `inferReturnType` panics with
"unable to infer return value of function" exactly when `NumReturnVals` is greater than 1, and
the function is then as it was before the call (output variable and operand stack unchanged,
nothing printed). -/
theorem multi_value_return_panics (ext : Externals) (fn : Function) (ret : Instruction)
    (v : Variable) (op : RetOperands)
    (hOut : fn.Out = some v) (hret : ret.Operands = Operands.Ret op) :
    ((∃ fn1 out, fn.inferReturnType ext ret
        = .error (Panic.message "unable to infer return value of function", fn1, out))
      ↔ 1 < op.NumReturnVals) ∧
    (1 < op.NumReturnVals →
      fn.inferReturnType ext ret
        = .error (Panic.message "unable to infer return value of function", fn, [])) := by
  have hbig : 1 < op.NumReturnVals →
      fn.inferReturnType ext ret
        = .error (Panic.message "unable to infer return value of function", fn, []) := by
    intro h
    have h0 : op.NumReturnVals ≠ 0 := by omega
    have h1 : op.NumReturnVals ≠ 1 := by omega
    simp [Function.inferReturnType, hret, h0, h1]
  refine ⟨⟨?_, fun h => ⟨fn, [], hbig h⟩⟩, hbig⟩
  rintro ⟨fn1, out, he⟩
  by_contra hle
  have hcases : op.NumReturnVals = 0 ∨ op.NumReturnVals = 1 := by omega
  rcases hcases with h0 | h1
  · simp [Function.inferReturnType, hret, h0, hOut] at he
  · rw [Function.inferReturnType] at he
    simp only [hret, h1] at he
    cases hd : ext.DataType fn.BasicBlock.peekNode.1 with
    | none => simp [hd] at he
    | some t => simp [hd, hOut] at he

theorem multi_value_return_panics_witness :
    (sampleFunction (stackOf 7)).Out = some { Identifier := "result", Typ := DataType.Unresolved } ∧
    (retInstr 2).Operands = Operands.Ret { NumReturnVals := 2 } ∧
    (sampleFunction (stackOf 7)).inferReturnType sampleExt (retInstr 2)
      = .error (Panic.message "unable to infer return value of function",
          sampleFunction (stackOf 7), []) :=
  ⟨rfl, rfl,
    (multi_value_return_panics sampleExt (sampleFunction (stackOf 7)) (retInstr 2)
      { Identifier := "result", Typ := DataType.Unresolved } { NumReturnVals := 2 } rfl rfl).2
      (by decide)⟩

/-! ## Rendering -/

theorem stringsJoin_append_singleton (l : List String) (x : String) :
    stringsJoin (l ++ [x]) "" = stringsJoin l "" ++ x := by
  induction l with
  | nil => simp [stringsJoin]
  | cons a l ih =>
    cases l with
    | nil => simp [stringsJoin]
    | cons b rest =>
      have hstep : stringsJoin (a :: b :: rest ++ [x]) ""
          = a ++ "" ++ stringsJoin (b :: rest ++ [x]) "" := by
        simp [stringsJoin]
      rw [hstep, ih]
      simp [stringsJoin, String.append_assoc]

theorem stringsJoin_empty_sep (l : List String) :
    stringsJoin l "" = l.foldr (fun a acc => a ++ acc) "" := by
  induction l with
  | nil => rfl
  | cons a l ih =>
    cases l with
    | nil => simp [stringsJoin]
    | cons b rest =>
      have hstep : stringsJoin (a :: b :: rest) "" = a ++ "" ++ stringsJoin (b :: rest) "" := by
        simp [stringsJoin]
      rw [hstep, ih]
      simp

theorem stringsJoin_eq_intercalate_go (acc sep : String) (l : List String) :
    String.intercalate.go acc sep l = stringsJoin (acc :: l) sep := by
  induction l generalizing acc with
  | nil => simp [String.intercalate.go, stringsJoin]
  | cons b rest ih =>
    rw [String.intercalate.go, ih]
    cases rest with
    | nil => simp [stringsJoin]
    | cons c rest2 => simp [stringsJoin, String.append_assoc]

/-- `stringsJoin` is the library's `String.intercalate`: the elements in order, the separator
between neighbours. -/
theorem stringsJoin_eq_intercalate (sep : String) (l : List String) :
    stringsJoin l sep = sep.intercalate l := by
  cases l with
  | nil => rfl
  | cons a l => rw [String.intercalate, stringsJoin_eq_intercalate_go]

/-- The line of a statement is a tab, the statement's text and a newline, whatever the
`hasSemicolon` flag. -/
theorem BasicBlock.CStringLine_eq (ext : Externals) (s : Node) :
    BasicBlock.CStringLine ext s = "\t" ++ ext.nodeCString s ++ "\n" := rfl

/-- C14, what the code does. For every statement, also one that is neither an `IfStmt` nor a
`Comment` (`hasSemicolon` is set), `CString` renders the line as a tab, the statement's text and
a newline: the text with the terminator `;` is computed and dropped, so the rendering differs
from the terminated line. -/
theorem statement_terminator_dropped (ext : Externals) (block : BasicBlock) (s : Node) :
    BasicBlock.CString ext { block with Statements := [s] }
      = "\t" ++ ext.nodeCString s ++ "\n" ∧
    BasicBlock.CString ext { block with Statements := [s] }
      ≠ "\t" ++ (ext.nodeCString s ++ ";") ++ "\n" := by
  have hr : BasicBlock.CString ext { block with Statements := [s] }
      = "\t" ++ ext.nodeCString s ++ "\n" := by
    simp [BasicBlock.CString, stringsJoin, BasicBlock.CStringLine_eq]
  refine ⟨hr, ?_⟩
  rw [hr]
  intro he
  have hl := congrArg String.length he
  simp [String.length_append] at hl
  exact absurd hl (by decide)

theorem statement_terminator_dropped_witness :
    BasicBlock.hasSemicolon
      (Node.ReturnStmt [Node.BinaryExpr (Node.VariableRef "a") "+" (Node.VariableRef "b")])
      = true ∧
    BasicBlock.CString sampleExt
      { BasicBlock.newBlock with
        Statements := [Node.ReturnStmt
          [Node.BinaryExpr (Node.VariableRef "a") "+" (Node.VariableRef "b")]] }
      = "\treturn a + b\n" :=
  ⟨rfl,
    (statement_terminator_dropped sampleExt BasicBlock.newBlock
      (Node.ReturnStmt [Node.BinaryExpr (Node.VariableRef "a") "+" (Node.VariableRef "b")])).1⟩

/-- C15. Function wrapper rendering: for a function whose output variable is set, `CString`
succeeds with the rendered output type, a blank, the identifier, `(`, the renderings of the input
variables in declaration order joined by `, `, `) {` and a newline, the rendered local
declarations, a newline, the rendered entry-block body, and `}`; with no inputs the parameter
list is `()`. -/
theorem function_wrapper_rendering (ext : Externals) (fn : Function) (out : Variable)
    (hOut : fn.Out = some out) :
    fn.CString ext
      = .ok (ext.typeCString out.Typ ++ " " ++ fn.Identifier ++ "("
          ++ ", ".intercalate (fn.In.Vars.map ext.varCString) ++ ") \x7b\n"
          ++ ext.declsCString fn.Decls ++ "\n" ++ fn.BasicBlock.CString ext ++ "\x7d") ∧
    (fn.In.Vars = [] →
      fn.CString ext
        = .ok (ext.typeCString out.Typ ++ " " ++ fn.Identifier ++ "()" ++ " \x7b\n"
            ++ ext.declsCString fn.Decls ++ "\n" ++ fn.BasicBlock.CString ext ++ "\x7d")) := by
  have hmain : fn.CString ext
      = .ok (ext.typeCString out.Typ ++ " " ++ fn.Identifier ++ "("
          ++ ", ".intercalate (fn.In.Vars.map ext.varCString) ++ ") \x7b\n"
          ++ ext.declsCString fn.Decls ++ "\n" ++ fn.BasicBlock.CString ext ++ "\x7d") := by
    simp [Function.CString, hOut, stringsJoin_eq_intercalate]
  refine ⟨hmain, ?_⟩
  intro hin
  rw [hmain, hin]
  have h2 : ∀ X : String, "(" ++ (") \x7b\n" ++ X) = "() \x7b\n" ++ X := by
    intro X
    rw [← String.append_assoc]
    rfl
  simp [String.intercalate, String.append_assoc, h2]

theorem function_wrapper_rendering_witness :
    (sampleFunction link.nil).Out = some { Identifier := "result", Typ := DataType.Unresolved } ∧
    ({ sampleFunction link.nil with
        Out := some { Identifier := "result", Typ := DataType.Uint32Type }
        BasicBlock := { BasicBlock.newBlock with
          Statements := [Node.ReturnStmt
            [Node.BinaryExpr (Node.VariableRef "a") "+" (Node.VariableRef "b")]] } }
      : Function).CString sampleExt
      = .ok "uint32 add(uint32 a, uint32 b) \x7b\n\n\treturn a + b\n\x7d" :=
  ⟨rfl,
    (function_wrapper_rendering sampleExt
      { sampleFunction link.nil with
        Out := some { Identifier := "result", Typ := DataType.Uint32Type }
        BasicBlock := { BasicBlock.newBlock with
          Statements := [Node.ReturnStmt
            [Node.BinaryExpr (Node.VariableRef "a") "+" (Node.VariableRef "b")]] } }
      { Identifier := "result", Typ := DataType.Uint32Type } rfl).1.trans rfl⟩

/-! ## Architecture selection in `main` -/

theorem startsWithChars_iff (s sub : List Char) :
    startsWithChars s sub = true ↔ List.IsPrefix sub s := by
  induction s generalizing sub with
  | nil =>
    cases sub with
    | nil => simp [startsWithChars]
    | cons d ds => simp [startsWithChars]
  | cons c cs ih =>
    cases sub with
    | nil => simp [startsWithChars]
    | cons d ds =>
      simp only [startsWithChars, Bool.and_eq_true, beq_iff_eq, ih, List.cons_prefix_cons]
      constructor
      · rintro ⟨rfl, h⟩
        exact ⟨rfl, h⟩
      · rintro ⟨rfl, h⟩
        exact ⟨rfl, h⟩

/-- `stringsContains` holds exactly when the characters of the second string occur in the first
as a contiguous run. -/
theorem containsChars_iff (s sub : List Char) :
    containsChars s sub = true ↔ List.IsInfix sub s := by
  induction s with
  | nil =>
    simp only [containsChars, startsWithChars_iff, List.prefix_nil, List.infix_nil]
  | cons c cs ih =>
    simp only [containsChars, Bool.or_eq_true, startsWithChars_iff, ih, List.infix_cons_iff]

/-- When the switch panics, `main` ends there: after the log line and the file read, nothing
else has happened. -/
theorem main_unknown_architecture (w : Collaborators) (args : List String) (in_file : String)
    (data : List Nat) (p : Panic) (harg : args[1]? = some in_file)
    (hread : w.readFile in_file = .ok data) (hsel : setArchitecture in_file = .error p) :
    main w args
      = ([Event.logPrintf ("Decompiling " ++ in_file ++ "\n"), Event.readFile in_file],
          Exit.panicked p) := by
  simp [main, harg, hread, hsel]

/-- When the switch selects an architecture, `main` sets it, then unpacks the container; no other
architecture is ever set and `main` does not panic. -/
theorem main_selected_architecture (w : Collaborators) (args : List String) (in_file : String)
    (data : List Nat) (a : Arch) (harg : args[1]? = some in_file)
    (hread : w.readFile in_file = .ok data) (hsel : setArchitecture in_file = .ok a) :
    (main w args).1.take 4
      = [Event.logPrintf ("Decompiling " ++ in_file ++ "\n"), Event.readFile in_file,
          Event.setArch a, Event.containerUnpack] ∧
    (∀ b, Event.setArch b ∈ (main w args).1 ↔ b = a) ∧
    (∀ p, (main w args).2 ≠ Exit.panicked p) := by
  simp only [main, harg, hread, hsel]
  cases w.containerUnpack a data (w.pathBase in_file) (data.length % 2 ^ 32) with
  | some err => simp [eq_comm]
  | none =>
    cases w.loadNativeDB with
    | some err =>
      cases w.scriptUnpack a data (w.pathBase in_file) with
      | error e => simp [eq_comm]
      | ok code => simp [eq_comm]
    | none =>
      cases w.scriptUnpack a data (w.pathBase in_file) with
      | error e => simp [eq_comm]
      | ok code => simp [eq_comm]

/-- C16, amended. Architecture selection: once `main` has its path argument and has read the
file, the architecture is decided by the path alone. A path containing `xsc` selects `Arch360`; a path
containing `ysc` and not `xsc` selects `ArchPC`; a path containing neither makes `main` panic
with the unknown-architecture message right after the file read, before the container is unpacked
or the script decoded. Exactly one of the three happens, and a selected architecture is set before
the container is unpacked. -/
theorem architecture_selection (w : Collaborators) (args : List String) (in_file : String)
    (data : List Nat) (harg : args[1]? = some in_file)
    (hread : w.readFile in_file = .ok data) :
    (stringsContains in_file "xsc" = true →
      setArchitecture in_file = .ok Arch.Arch360 ∧
      Event.setArch Arch.Arch360 ∈ (main w args).1) ∧
    (stringsContains in_file "ysc" = true → stringsContains in_file "xsc" = false →
      setArchitecture in_file = .ok Arch.ArchPC ∧
      Event.setArch Arch.ArchPC ∈ (main w args).1) ∧
    (stringsContains in_file "xsc" = false → stringsContains in_file "ysc" = false →
      main w args
        = ([Event.logPrintf ("Decompiling " ++ in_file ++ "\n"), Event.readFile in_file],
            Exit.panicked (Panic.message ("unknown architecture, path: " ++ in_file)))) ∧
    ((Event.setArch Arch.Arch360 ∈ (main w args).1 ∧
        Event.setArch Arch.ArchPC ∉ (main w args).1 ∧
        (main w args).2
          ≠ Exit.panicked (Panic.message ("unknown architecture, path: " ++ in_file))) ∨
      (Event.setArch Arch.Arch360 ∉ (main w args).1 ∧
        Event.setArch Arch.ArchPC ∈ (main w args).1 ∧
        (main w args).2
          ≠ Exit.panicked (Panic.message ("unknown architecture, path: " ++ in_file))) ∨
      (Event.setArch Arch.Arch360 ∉ (main w args).1 ∧
        Event.setArch Arch.ArchPC ∉ (main w args).1 ∧
        (main w args).2
          = Exit.panicked (Panic.message ("unknown architecture, path: " ++ in_file)))) ∧
    (∀ a, Event.setArch a ∈ (main w args).1 →
      (main w args).1.take 4
        = [Event.logPrintf ("Decompiling " ++ in_file ++ "\n"), Event.readFile in_file,
            Event.setArch a, Event.containerUnpack]) ∧
    ((main w args).2 = Exit.panicked (Panic.message ("unknown architecture, path: " ++ in_file)) →
      Event.containerUnpack ∉ (main w args).1 ∧ Event.scriptUnpack ∉ (main w args).1 ∧
      Event.decompile ∉ (main w args).1) := by
  have hx : stringsContains in_file "xsc" = true → setArchitecture in_file = .ok Arch.Arch360 := by
    intro h
    simp [setArchitecture, h]
  have hy : stringsContains in_file "ysc" = true → stringsContains in_file "xsc" = false →
      setArchitecture in_file = .ok Arch.ArchPC := by
    intro h1 h2
    simp [setArchitecture, h1, h2]
  have hn : stringsContains in_file "xsc" = false → stringsContains in_file "ysc" = false →
      setArchitecture in_file
        = .error (Panic.message ("unknown architecture, path: " ++ in_file)) := by
    intro h1 h2
    simp [setArchitecture, h1, h2]
  have hsel : ∀ a, setArchitecture in_file = .ok a →
      (∀ b, Event.setArch b ∈ (main w args).1 ↔ b = a) ∧
      (∀ p, (main w args).2 ≠ Exit.panicked p) ∧
      (main w args).1.take 4
        = [Event.logPrintf ("Decompiling " ++ in_file ++ "\n"), Event.readFile in_file,
            Event.setArch a, Event.containerUnpack] := by
    intro a ha
    have h := main_selected_architecture w args in_file data a harg hread ha
    exact ⟨h.2.1, h.2.2, h.1⟩
  have hpanic : ∀ p, setArchitecture in_file = .error p →
      main w args
        = ([Event.logPrintf ("Decompiling " ++ in_file ++ "\n"), Event.readFile in_file],
            Exit.panicked p) :=
    fun p hp => main_unknown_architecture w args in_file data p harg hread hp
  refine ⟨fun h => ⟨hx h, ((hsel _ (hx h)).1 _).mpr rfl⟩,
    fun h1 h2 => ⟨hy h1 h2, ((hsel _ (hy h1 h2)).1 _).mpr rfl⟩,
    fun h1 h2 => hpanic _ (hn h1 h2), ?_, ?_, ?_⟩
  · cases h1 : stringsContains in_file "xsc" with
    | true =>
      have hs := hsel _ (hx h1)
      refine Or.inl ⟨(hs.1 _).mpr rfl, ?_, hs.2.1 _⟩
      intro hmem
      exact absurd ((hs.1 _).mp hmem) (by decide)
    | false =>
      cases h2 : stringsContains in_file "ysc" with
      | true =>
        have hs := hsel _ (hy h2 h1)
        refine Or.inr (Or.inl ⟨?_, (hs.1 _).mpr rfl, hs.2.1 _⟩)
        intro hmem
        exact absurd ((hs.1 _).mp hmem) (by decide)
      | false =>
        have hm := hpanic _ (hn h1 h2)
        refine Or.inr (Or.inr ⟨?_, ?_, ?_⟩) <;> simp [hm]
  · intro a ha
    cases hs : setArchitecture in_file with
    | error p =>
      rw [hpanic p hs] at ha
      simp at ha
    | ok b =>
      have h := hsel b hs
      have hab : a = b := (h.1 a).mp ha
      rw [hab]
      exact h.2.2
  · intro hexit
    cases hs : setArchitecture in_file with
    | error p =>
      rw [hpanic p hs]
      simp
    | ok b => exact absurd hexit ((hsel b hs).2.1 _)

theorem architecture_selection_witness :
    ["rage-decompile", "scripts/startup.ysc"][1]? = some "scripts/startup.ysc" ∧
    sampleCollaborators.readFile "scripts/startup.ysc" = .ok [] ∧
    stringsContains "scripts/startup.ysc" "ysc" = true ∧
    stringsContains "scripts/startup.ysc" "xsc" = false ∧
    setArchitecture "scripts/startup.ysc" = .ok Arch.ArchPC ∧
    Event.setArch Arch.ArchPC
      ∈ (main sampleCollaborators ["rage-decompile", "scripts/startup.ysc"]).1 :=
  have h := (architecture_selection sampleCollaborators
    ["rage-decompile", "scripts/startup.ysc"] "scripts/startup.ysc" [] rfl rfl).2.1
    (by decide) (by decide)
  ⟨rfl, rfl, by decide, by decide, h.1, h.2⟩

/-- When the file cannot be read, `main` ends with `log.Fatal` right after the read: the switch
is not reached, no architecture is set and there is no panic. -/
theorem main_read_failure (w : Collaborators) (args : List String) (in_file : String)
    (err : String) (harg : args[1]? = some in_file) (hread : w.readFile in_file = .error err) :
    main w args
      = ([Event.logPrintf ("Decompiling " ++ in_file ++ "\n"), Event.readFile in_file],
          Exit.logFatal err) := by
  simp [main, harg, hread]

/-- C16, as stated, fails for a path whose file cannot be read. The path `nofile.bin` contains
neither `xsc` nor `ysc`, yet `main` ends with `log.Fatal` on the read error, not with the
unknown-architecture panic, and sets no architecture: none of the three outcomes occurs. The
path `missing.xsc` contains `xsc`, yet `Arch360` is not selected. -/
theorem unreadable_path_selects_nothing :
    stringsContains "nofile.bin" "xsc" = false ∧
    stringsContains "nofile.bin" "ysc" = false ∧
    main failingRead ["rage-decompile", "nofile.bin"]
      = ([Event.logPrintf "Decompiling nofile.bin\n", Event.readFile "nofile.bin"],
          Exit.logFatal "open: no such file or directory") ∧
    ¬ (Event.setArch Arch.Arch360 ∈ (main failingRead ["rage-decompile", "nofile.bin"]).1 ∨
        Event.setArch Arch.ArchPC ∈ (main failingRead ["rage-decompile", "nofile.bin"]).1 ∨
        (main failingRead ["rage-decompile", "nofile.bin"]).2
          = Exit.panicked (Panic.message ("unknown architecture, path: " ++ "nofile.bin"))) ∧
    stringsContains "missing.xsc" "xsc" = true ∧
    Event.setArch Arch.Arch360 ∉ (main failingRead ["rage-decompile", "missing.xsc"]).1 := by
  have h1 := main_read_failure failingRead ["rage-decompile", "nofile.bin"] "nofile.bin"
    "open: no such file or directory" rfl rfl
  have h2 := main_read_failure failingRead ["rage-decompile", "missing.xsc"] "missing.xsc"
    "open: no such file or directory" rfl rfl
  refine ⟨by decide, by decide, h1.trans rfl, ?_, by decide, ?_⟩
  · rw [h1]
    simp
  · rw [h2]
    simp

/-! ## Rendering of a block body -/

/-- A call `block.CString()` returns the rendering and leaves the block as it was. -/
theorem BasicBlock.CStringCall_block (ext : Externals) (block : BasicBlock) :
    block.CStringCall ext = (block.CString ext, block) := rfl

/-- C19. Block body layout: `CString` is the concatenation, in statement-list order, of one line
per statement, each a tab, the statement's text and a newline. An empty statement list renders to
the empty string; `emitStatement(s)` appends `s` after the earlier statements, and the rendering
afterwards is the previous rendering followed by the line for `s`. -/
theorem block_body_layout (ext : Externals) (block : BasicBlock) (s : Node) :
    block.CString ext
      = (block.Statements.map (fun st => "\t" ++ ext.nodeCString st ++ "\n")).foldr
          (fun a acc => a ++ acc) "" ∧
    (block.Statements = [] → block.CString ext = "") ∧
    (block.emitStatement s).Statements = block.Statements ++ [s] ∧
    (block.emitStatement s).CString ext
      = block.CString ext ++ ("\t" ++ ext.nodeCString s ++ "\n") := by
  refine ⟨?_, ?_, rfl, ?_⟩
  · rw [BasicBlock.CString, stringsJoin_empty_sep]
    rfl
  · intro he
    simp [BasicBlock.CString, he, stringsJoin]
  · simp only [BasicBlock.CString, BasicBlock.emitStatement, List.map_append, List.map_cons,
      List.map_nil, stringsJoin_append_singleton, BasicBlock.CStringLine_eq]

theorem block_body_layout_witness :
    (BasicBlock.emitStatement
        (BasicBlock.emitStatement BasicBlock.newBlock (Node.Comment "entry"))
        (Node.VariableRef "a")).CString sampleExt
      = "\t// entry\n\ta\n" ∧
    BasicBlock.newBlock.CString sampleExt = "" :=
  have h := block_body_layout sampleExt
    (BasicBlock.emitStatement BasicBlock.newBlock (Node.Comment "entry")) (Node.VariableRef "a")
  ⟨h.2.2.2.trans rfl, (block_body_layout sampleExt BasicBlock.newBlock (Node.VariableRef "a")).2.1 rfl⟩

/-! ## Sequential access and the cursor invariant -/

theorem Instructions.appendAll_eq (s : Instructions) (istrs : List Instruction) :
    s.appendAll istrs
      = { code := s.code ++ istrs.map
                    (fun i => ({ toInstruction := i, nodeStack := link.nil } : InstructionState))
          idx := s.idx } := by
  induction istrs generalizing s with
  | nil => simp [Instructions.appendAll]
  | cons i rest ih => simp [Instructions.appendAll, ih, Instructions.append]

theorem Instructions.drain_from (pre post : List InstructionState) :
    Instructions.drain post.length { code := pre ++ post, idx := pre.length }
      = .ok (post.map (fun st => (false, st.toInstruction)),
          { code := pre ++ post, idx := pre.length + post.length }) := by
  induction post generalizing pre with
  | nil => simp [Instructions.drain]
  | cons c post ih =>
    have hlt : ({ code := pre ++ c :: post, idx := pre.length } : Instructions).idx
        < ({ code := pre ++ c :: post, idx := pre.length } : Instructions).code.length := by
      simp
    have hn := Instructions.nextInstruction_of_lt
      { code := pre ++ c :: post, idx := pre.length } hlt
    have hget : ∀ h : pre.length < (pre ++ c :: post).length,
        (pre ++ c :: post)[pre.length] = c := by
      intro h
      have h2 := getElem?_append_length pre c post
      rw [List.getElem?_eq_getElem h] at h2
      exact Option.some.inj h2
    have heof : ({ code := pre ++ c :: post, idx := pre.length } : Instructions).isEOF
        = false := by
      simp [Instructions.isEOF]
    have hrec := ih (pre ++ [c])
    simp only [List.append_assoc, List.singleton_append, List.length_append,
      List.length_singleton] at hrec
    simp only [hget] at hn
    simp only [List.length_cons, Instructions.drain, hn, hrec, heof, List.map_cons]
    have harith : pre.length + 1 + post.length = pre.length + (post.length + 1) := by omega
    rw [harith]

/-- C18. Sequential access: after the instructions of a list were added one by one with `append`
to an empty stream, as many calls of `nextInstruction` as there are instructions, from cursor 0
or after `reset` from any cursor, all succeed and hand out exactly those instructions in append
order; `isEOF` is false before each of the calls and true after the last. `append` keeps the
cursor and the earlier entries and gives the new entry a nil snapshot. -/
theorem sequential_access (istrs : List Instruction) :
    (Instructions.appendAll { code := [], idx := 0 } istrs).idx = 0 ∧
    (Instructions.appendAll { code := [], idx := 0 } istrs).code.map (fun st => st.toInstruction)
      = istrs ∧
    Instructions.drain istrs.length (Instructions.appendAll { code := [], idx := 0 } istrs)
      = .ok (istrs.map (fun i => (false, i)),
          { code := (Instructions.appendAll { code := [], idx := 0 } istrs).code
            idx := istrs.length }) ∧
    ({ code := (Instructions.appendAll { code := [], idx := 0 } istrs).code
       idx := istrs.length } : Instructions).isEOF = true ∧
    (∀ k, Instructions.drain istrs.length
        ({ code := (Instructions.appendAll { code := [], idx := 0 } istrs).code
           idx := k } : Instructions).reset
      = .ok (istrs.map (fun i => (false, i)),
          { code := (Instructions.appendAll { code := [], idx := 0 } istrs).code
            idx := istrs.length })) ∧
    (∀ (s : Instructions) (istr : Instruction),
      (s.append istr).idx = s.idx ∧
      (s.append istr).code = s.code ++ [{ toInstruction := istr, nodeStack := link.nil }] ∧
      (∀ k, k < s.code.length → (s.append istr).code[k]? = s.code[k]?) ∧
      (s.append istr).code[s.code.length]?
        = some { toInstruction := istr, nodeStack := link.nil }) := by
  have hs := Instructions.appendAll_eq { code := [], idx := 0 } istrs
  simp only [List.nil_append] at hs
  have hd := Instructions.drain_from []
    (istrs.map (fun i => ({ toInstruction := i, nodeStack := link.nil } : InstructionState)))
  simp only [List.nil_append, List.length_nil, List.length_map, Nat.zero_add, List.map_map]
    at hd
  have hmap : (fun st : InstructionState => (false, st.toInstruction))
      ∘ (fun i => ({ toInstruction := i, nodeStack := link.nil } : InstructionState))
      = fun i => (false, i) := rfl
  rw [hmap] at hd
  have hid : (fun st : InstructionState => st.toInstruction)
      ∘ (fun i => ({ toInstruction := i, nodeStack := link.nil } : InstructionState))
      = id := rfl
  refine ⟨by rw [hs], ?_, ?_, ?_, ?_, ?_⟩
  · rw [hs]
    simp only [List.map_map, hid, List.map_id]
  · rw [hs]
    exact hd
  · rw [hs]
    simp [Instructions.isEOF]
  · intro k
    rw [hs]
    exact hd
  · intro s istr
    refine ⟨rfl, rfl, ?_, ?_⟩
    · intro k hk
      exact List.getElem?_append_left hk
    · exact getElem?_append_length s.code _ []

theorem sequential_access_witness :
    Instructions.drain 3 (Instructions.appendAll { code := [], idx := 0 }
        [instrAt 4, instrAt 8, instrAt 9])
      = .ok ([(false, instrAt 4), (false, instrAt 8), (false, instrAt 9)],
          { code := (Instructions.appendAll { code := [], idx := 0 }
                      [instrAt 4, instrAt 8, instrAt 9]).code
            idx := 3 }) ∧
    ({ code := (Instructions.appendAll { code := [], idx := 0 }
                  [instrAt 4, instrAt 8, instrAt 9]).code
       idx := 3 } : Instructions).isEOF = true :=
  have h := sequential_access [instrAt 4, instrAt 8, instrAt 9]
  ⟨h.2.2.1, h.2.2.2.1⟩

/-- A successful `nextInstruction` started before the end and moved the cursor by one. -/
theorem Instructions.nextInstruction_ok (s s1 : Instructions) (istr : Instruction)
    (h : s.nextInstruction = .ok (istr, s1)) :
    s.idx < s.code.length ∧ s1 = { code := s.code, idx := s.idx + 1 } := by
  by_cases hlt : s.idx < s.code.length
  · rw [Instructions.nextInstruction_of_lt s hlt] at h
    simp only [Except.ok.injEq, Prod.mk.injEq] at h
    exact ⟨hlt, h.2.symm⟩
  · exfalso
    have hnone : s.code[s.idx]? = none := List.getElem?_eq_none_iff.mpr (Nat.le_of_not_lt hlt)
    unfold Instructions.nextInstruction Instructions.peekInstruction at h
    by_cases hgt : s.idx > s.code.length
    · simp [hgt] at h
    · simp [hgt, hnone] at h

/-- A successful `peekInstruction` leaves the stream as it was. -/
theorem Instructions.peekInstruction_ok (s s1 : Instructions) (istr : Instruction)
    (h : s.peekInstruction = .ok (istr, s1)) : s1 = s := by
  unfold Instructions.peekInstruction at h
  by_cases hgt : s.idx > s.code.length
  · simp [hgt] at h
  · cases hc : s.code[s.idx]? with
    | none => simp [hgt, hc] at h
    | some st =>
      simp only [hgt, hc, if_false, Except.ok.injEq, Prod.mk.injEq] at h
      exact h.2.symm

/-- The cursor stays within `0 .. len(code)` along every run of calls that completes. -/
theorem Instructions.runCalls_cursor (calls : List StreamCall) (s s1 : Instructions)
    (hinv : s.idx ≤ s.code.length) (h : Instructions.runCalls calls s = .ok s1) :
    s1.idx ≤ s1.code.length := by
  induction calls generalizing s with
  | nil =>
    simp only [Instructions.runCalls, Except.ok.injEq] at h
    rw [← h]
    exact hinv
  | cons call rest ih =>
    cases call with
    | append istr =>
      exact ih (s.append istr) (by simp [Instructions.append]; omega) h
    | reset =>
      exact ih s.reset (by simp [Instructions.reset]) h
    | peekInstruction =>
      simp only [Instructions.runCalls] at h
      cases hp : s.peekInstruction with
      | error p => simp [hp] at h
      | ok r =>
        obtain ⟨istr, s2⟩ := r
        simp only [hp] at h
        have := Instructions.peekInstruction_ok s s2 istr hp
        subst this
        exact ih _ hinv h
    | nextInstruction =>
      simp only [Instructions.runCalls] at h
      cases hp : s.nextInstruction with
      | error p => simp [hp] at h
      | ok r =>
        obtain ⟨istr, s2⟩ := r
        simp only [hp] at h
        obtain ⟨hlt, hs2⟩ := Instructions.nextInstruction_ok s s2 istr hp
        subst hs2
        exact ih _ (by simpa using hlt) h

/-- C20. Cursor invariant: after every finite sequence of `append`, `reset`, `peekInstruction`
and `nextInstruction` calls on an empty stream that all complete without failing, the cursor
satisfies `0 <= idx <= len(code)`; so `prevInstructionState` returns nil or a position inside the
list without failing, and the guard `idx > len(code)` of `peekInstruction` is false, its
end-of-stream panic never raised. -/
theorem cursor_invariant (calls : List StreamCall) (s : Instructions)
    (h : Instructions.runCalls calls { code := [], idx := 0 } = .ok s) :
    0 ≤ s.idx ∧ s.idx ≤ s.code.length ∧
    (∃ r, s.prevInstructionState = .ok r ∧ ∀ j, r = some j → j < s.code.length) ∧
    ¬ (s.idx > s.code.length) ∧
    s.peekInstruction ≠ .error (Panic.message "eof when peeking instruction") := by
  have hle : s.idx ≤ s.code.length :=
    Instructions.runCalls_cursor calls _ s (Nat.le_refl 0) h
  refine ⟨Nat.zero_le _, hle, ?_, Nat.not_lt.mpr hle, ?_⟩
  · by_cases h0 : s.idx ≤ 0
    · exact ⟨none, by simp [Instructions.prevInstructionState, h0], fun j hj => by cases hj⟩
    · have hlt : s.idx - 1 < s.code.length := by omega
      refine ⟨some (s.idx - 1), by simp [Instructions.prevInstructionState, h0, hlt], ?_⟩
      intro j hj
      cases hj
      exact hlt
  · intro he
    exact absurd ((Instructions.peekInstruction_eof_iff s).mp he) (Nat.not_lt.mpr hle)

theorem cursor_invariant_witness :
    ∃ s, Instructions.runCalls
        [StreamCall.append (instrAt 0), StreamCall.append (instrAt 4),
          StreamCall.nextInstruction, StreamCall.peekInstruction, StreamCall.nextInstruction,
          StreamCall.reset, StreamCall.nextInstruction, StreamCall.append (instrAt 8)]
        { code := [], idx := 0 } = .ok s ∧
      s.idx = 1 ∧ s.code.length = 3 ∧ s.idx ≤ s.code.length :=
  have hrun : Instructions.runCalls
      [StreamCall.append (instrAt 0), StreamCall.append (instrAt 4),
        StreamCall.nextInstruction, StreamCall.peekInstruction, StreamCall.nextInstruction,
        StreamCall.reset, StreamCall.nextInstruction, StreamCall.append (instrAt 8)]
      { code := [], idx := 0 }
    = .ok { code := [{ toInstruction := instrAt 0, nodeStack := link.nil },
                     { toInstruction := instrAt 4, nodeStack := link.nil },
                     { toInstruction := instrAt 8, nodeStack := link.nil }]
            idx := 1 } := rfl
  ⟨_, hrun, rfl, rfl, (cursor_invariant _ _ hrun).2.1⟩

end Ragekit
